import Mathlib

/-!
# A shallow embedding of `basicShell.c`

The development models the interactive shell of `src/basicShell.c`:

* the raw-mode line editor `lsh_read_line` (lines 30-137),
* the tokenizer and history archiver `lsh_split_line` (lines 139-209),
* the builtins, the process launcher and the dispatcher `lsh_execute`
  (lines 211-394).

Conventions of the embedding.

* A byte is a `Nat` (what `getchar` returns, 0..255).  A C string is the list
  of its bytes before the terminating NUL, so a C string holds no 0 byte.
* The capacity `bufsize` of the line buffer is a C `int` of 32 bits: an
  addition `bufsize += LSH_RL_BUFSIZE` whose result would pass `INT_MAX` is a
  signed overflow, undefined behaviour, and is reported as such.  The cursor
  `position` is below `bufsize` wherever a store is in bounds, so it stays an
  `int` with it.
* The counters of the token array and of the history array and the size
  computed by `lsh_say` are unbounded numbers: the model covers executions in
  which none of them reaches 2^31.
* `malloc` and `realloc` succeed and writes to the terminal succeed; the
  error exits taken when they fail are outside the model.
* Every store into the line buffer, the token array or the history array is
  bounds-checked by the model: a store outside the allocated capacity is
  undefined behaviour in C and is reported as such instead of being given a
  meaning.
* Standard output is one byte stream, in the order of the calls that write to
  it, as on a terminal.
-/

namespace BasicShell

/-! ## Constants -/

/-- Initial and incremental capacity of the line buffer, `LSH_RL_BUFSIZE`. -/
def LSH_RL_BUFSIZE : Nat := 1024

/-- Initial and incremental capacity of the token and history arrays. -/
def LSH_TOK_BUFSIZE : Nat := 64

/-- The largest value of a C `int`, `INT_MAX` (32-bit `int`). -/
def INT_MAX : Nat := 2147483647

/-- The delimiter set `" \t\r\n\a"`: space, tab, carriage return, newline, bell. -/
def LSH_TOK_DELIM : List Nat := [32, 9, 13, 10, 7]

/-- Bytes of an ASCII string literal. -/
def bytes (s : String) : List Nat := s.toList.map Char.toNat

/-- The C string stored at the start of a memory region: the bytes before the
first NUL. -/
def cstr (mem : List Nat) : List Nat := mem.takeWhile (fun b => b != 0)

/-! ## The history globals (lines 11-13) -/

/-- One cell of the `char **history` array. -/
inductive Slot where
  | uninit : Slot
  | null : Slot
  | ptr (s : List Nat) : Slot
deriving DecidableEq, Repr

/-- The globals `history`, `historyPos` and `historyBuffSize`.  The field
`history` is `none` for the NULL pointer and otherwise the cells of the
allocated array. -/
structure Globals where
  history : Option (List Slot)
  historyPos : Nat
  historyBuffSize : Nat
deriving DecidableEq, Repr

/-- The globals as initialised at program start. -/
def Globals.init : Globals := ⟨none, 0, LSH_TOK_BUFSIZE⟩

/-- The value of `history[i]` when it is a pointer to a string; `none` when the
array is not allocated, the index is outside it, or the cell holds no string. -/
def Globals.entry (g : Globals) (i : Int) : Option (List Nat) :=
  match g.history with
  | none => none
  | some arr =>
    if 0 ≤ i then
      match arr.get? i.toNat with
      | some (Slot.ptr s) => some s
      | _ => none
    else none

/-- The cells `history[0 .. historyPos-1]`. -/
def Globals.stored (g : Globals) : List Slot :=
  match g.history with
  | none => []
  | some arr => arr.take g.historyPos

/-! ## The line editor `lsh_read_line` (lines 30-137) -/

/-- The local state of `lsh_read_line` at the head of its loop.  `buffer` holds
the cells `buffer[0 .. position-1]`; the cells from `position` on are never read
by the source before it has written them, so they are not represented.  `out`
collects the bytes written to standard output by this call. -/
structure Editor where
  bufsize : Nat
  buffer : List Nat
  historyIndex : Int
  out : List Nat
deriving DecidableEq, Repr

/-- The cursor `position`. -/
def Editor.position (e : Editor) : Nat := e.buffer.length

/-- The locals as initialised on lines 32-35. -/
def Editor.init : Editor := ⟨LSH_RL_BUFSIZE, [], -1, []⟩

/-- The sequence `"\33[2K\r> "` that clears the terminal line and reprints the
prompt. -/
def redrawSeq : List Nat := [27, 91, 50, 75, 13, 62, 32]

/-- The sequence `"\b \b"` that erases one glyph. -/
def eraseSeq : List Nat := [8, 32, 8]

/-- The `strcpy(buffer, src); position = strlen(buffer);` pair of lines 92-93
and 111-112: `src` and its terminator must fit in the capacity. -/
def Editor.strcpy (e : Editor) (src : List Nat) : Option Editor :=
  if src.length + 1 ≤ e.bufsize then some { e with buffer := src } else none

/-- Lines 64-73, the delete byte. -/
def Editor.backspace (e : Editor) : Option Editor :=
  if e.position > 0 then
    if e.position - 1 < e.bufsize then
      some { e with buffer := e.buffer.dropLast, out := e.out ++ eraseSeq }
    else none
  else some e

/-- Lines 84-95, the Up arrow, entered when `c2 == 'A' && historyPos > 0`. -/
def Editor.arrowUp (g : Globals) (e : Editor) : Option Editor :=
  let e1 : Editor :=
    if e.historyIndex = -1 then { e with historyIndex := (g.historyPos : Int) - 1 }
    else if e.historyIndex > 0 then { e with historyIndex := e.historyIndex - 1 }
    else e
  match g.entry e1.historyIndex with
  | none => none
  | some s =>
    match ({ e1 with out := e1.out ++ redrawSeq } : Editor).strcpy s with
    | none => none
    | some e2 => some { e2 with out := e2.out ++ e2.buffer }

/-- Lines 98-117, the Down arrow, entered when `c2 == 'B'` and the Up branch
was not taken. -/
def Editor.arrowDown (g : Globals) (e : Editor) : Option Editor :=
  if e.historyIndex ≠ -1 then
    let e1 : Editor := { e with historyIndex := e.historyIndex + 1 }
    let r : Option Editor :=
      if e1.historyIndex ≥ (g.historyPos : Int) then
        if 0 < e1.bufsize then some { e1 with historyIndex := -1, buffer := [] } else none
      else
        match g.entry e1.historyIndex with
        | none => none
        | some s => e1.strcpy s
    match r with
    | none => none
    | some e2 => some { e2 with out := e2.out ++ redrawSeq ++ e2.buffer }
  else some e

/-- Lines 76-120: the two bytes read after an escape byte. -/
def Editor.escape (g : Globals) (e : Editor) (c1 c2 : Nat) : Option Editor :=
  if c1 = 91 then
    if c2 = 65 ∧ g.historyPos > 0 then e.arrowUp g
    else if c2 = 66 then e.arrowDown g
    else some e
  else some e

/-- Lines 123-135, a normal character: store, echo, grow when full.  The
capacity is the C `int bufsize`: when `bufsize += LSH_RL_BUFSIZE` on line 128
would pass `INT_MAX` the addition overflows, which is undefined behaviour.  The
increment `position++` cannot overflow where the store is in bounds, since
then `position < bufsize` and `bufsize` is an `int`. -/
def Editor.normalChar (e : Editor) (c : Nat) : Option Editor :=
  if e.position < e.bufsize then
    let e1 : Editor := { e with buffer := e.buffer ++ [c], out := e.out ++ [c] }
    if e1.position ≥ e1.bufsize then
      if e1.bufsize + LSH_RL_BUFSIZE ≤ INT_MAX then
        some { e1 with bufsize := e1.bufsize + LSH_RL_BUFSIZE }
      else none
    else some e1
  else none

/-- The bound invariant of the loop of `lsh_read_line` for a history `es`: the
cursor is inside the capacity, and while history is being browsed the entry
under the navigation index and all newer ones fit, with their terminator, in
the capacity. -/
def Editor.Inv (es : List (List Nat)) (e : Editor) : Prop :=
  e.buffer.length < e.bufsize ∧
    (e.historyIndex = -1 ∨
      (0 ≤ e.historyIndex ∧ e.historyIndex < (es.length : Int) ∧
        ∀ (i : Nat) (s : List Nat), e.historyIndex ≤ (i : Int) → es.get? i = some s →
          s.length < e.bufsize))

/-- How a run of `lsh_read_line` over a finite input ends. -/
inductive ReadOutcome where
  /-- The function returned `line`; `e` holds the final locals and output and
  `rest` the unread input. -/
  | returned (line : List Nat) (e : Editor) (rest : List Nat) : ReadOutcome
  /-- The input ended with the locals `e`.  `pending` is empty when it ended at
  the head of the loop, and holds the bytes of an unfinished escape sequence
  otherwise (its missing followers read as EOF, so it changes nothing).  The
  source does not return from here: `getchar` keeps yielding EOF, which is none
  of the four control bytes. -/
  | starved (e : Editor) (pending : List Nat) : ReadOutcome
  /-- A store outside the buffer capacity, a read of a history cell that holds
  no string, or an overflow of the `int` capacity: undefined behaviour. -/
  | undefined : ReadOutcome
deriving DecidableEq, Repr

/-- The `while (1)` loop of `lsh_read_line` (lines 44-136) from locals `e` over
the input bytes `inp`. -/
def lsh_read_line_loop (g : Globals) : Editor → List Nat → ReadOutcome
  | e, [] => ReadOutcome.starved e []
  | e, c :: rest =>
    if c = 10 then
      if e.position < e.bufsize then
        ReadOutcome.returned (cstr e.buffer) { e with out := e.out ++ [10] } rest
      else ReadOutcome.undefined
    else if c = 4 then
      if e.position < e.bufsize then ReadOutcome.returned (cstr e.buffer) e rest
      else ReadOutcome.undefined
    else if c = 127 then
      match e.backspace with
      | none => ReadOutcome.undefined
      | some e1 => lsh_read_line_loop g e1 rest
    else if c = 27 then
      match rest with
      | c1 :: c2 :: rest2 =>
        match e.escape g c1 c2 with
        | none => ReadOutcome.undefined
        | some e1 => lsh_read_line_loop g e1 rest2
      | _ => ReadOutcome.starved e (c :: rest)
    else
      match e.normalChar c with
      | none => ReadOutcome.undefined
      | some e1 => lsh_read_line_loop g e1 rest

/-- The line a run of `lsh_read_line` returned, when it returned. -/
def ReadOutcome.returnedLine : ReadOutcome → Option (List Nat)
  | ReadOutcome.returned line _ _ => some line
  | _ => none

/-- The function `lsh_read_line` with the history globals `g` and the input
bytes `inp`. -/
def lsh_read_line (g : Globals) (inp : List Nat) : ReadOutcome :=
  lsh_read_line_loop g Editor.init inp

/-- The three bytes an Up arrow key sends: escape, `[`, `A`. -/
def upKey : List Nat := [27, 91, 65]

/-- The three bytes a Down arrow key sends: escape, `[`, `B`. -/
def downKey : List Nat := [27, 91, 66]

/-- The bytes of `k` presses of a key. -/
def presses (key : List Nat) : Nat → List Nat
  | 0 => []
  | k + 1 => key ++ presses key k

/-! ## The tokenizer and archiver `lsh_split_line` (lines 139-209) -/

/-- Whether a byte is one of the delimiters of `LSH_TOK_DELIM`. -/
def isDelim (c : Nat) : Bool := decide (c ∈ LSH_TOK_DELIM)

/-- What one call of `strtok` yields when it finds a token: the token, the
bytes it walked over as the call leaves them in memory, and the text at the
saved pointer. -/
structure Tok where
  token : List Nat
  walked : List Nat
  rest : List Nat
deriving DecidableEq, Repr

/-- One call `strtok(_, LSH_TOK_DELIM)` on the text `s` at the scan pointer:
skip the leading delimiters; at the end of the text there is no token;
otherwise the token runs up to the next delimiter, which is overwritten with
NUL, or up to the end of the text. -/
def strtok (s : List Nat) : Option Tok :=
  let skipped := s.takeWhile isDelim
  let s1 := s.dropWhile isDelim
  match s1 with
  | [] => none
  | _ :: _ =>
    let tok := s1.takeWhile (fun c => !isDelim c)
    match s1.dropWhile (fun c => !isDelim c) with
    | [] => some ⟨tok, skipped ++ tok, []⟩
    | _ :: r => some ⟨tok, skipped ++ tok ++ [0], r⟩

/-- The local array `tokens` with its capacity `bufsize`; `tokens` holds the
cells `tokens[0 .. position-1]`. -/
structure TokArr where
  bufsize : Nat
  tokens : List (List Nat)
deriving DecidableEq, Repr

/-- Lines 157-169: store a token, advance, grow the array when full. -/
def TokArr.push (a : TokArr) (t : List Nat) : Option TokArr :=
  if a.tokens.length < a.bufsize then
    let a1 : TokArr := { a with tokens := a.tokens ++ [t] }
    if a1.tokens.length ≥ a1.bufsize then
      some { a1 with bufsize := a1.bufsize + LSH_TOK_BUFSIZE }
    else some a1
  else none

/-- The loop of lines 154-172.  `mem` is the part of the line buffer already
walked over, as `strtok` left it, and `s` the text at the scan pointer.  The
result is the token array and the final contents of the line buffer; `none`
stands for a store outside the token array, or for `fuel` running out before
the text does (the fuel given by `lsh_split_line` never does). -/
def lsh_split_loop : Nat → TokArr → List Nat → List Nat → Option (TokArr × List Nat)
  | 0, _, _, _ => none
  | fuel + 1, a, mem, s =>
    match strtok s with
    | none => some (a, mem ++ s)
    | some t =>
      match a.push t.token with
      | none => none
      | some a1 => lsh_split_loop fuel a1 (mem ++ t.walked) t.rest

/-- The block `realloc(history, historyBuffSize * sizeof(char *))`: an array
of `n` cells that keeps the old cells; new cells are uninitialised. -/
def reallocSlots (old : Option (List Slot)) (n : Nat) : List Slot :=
  match old with
  | none => List.replicate n Slot.uninit
  | some arr => arr.take n ++ List.replicate (n - arr.length) Slot.uninit

/-- Lines 177-205: append `linePtr` to the history array. -/
def archive (g : Globals) (linePtr : List Nat) : Option Globals :=
  let arr0 : List Slot :=
    match g.history with
    | none => reallocSlots none g.historyBuffSize
    | some arr => arr
  if g.historyPos < arr0.length then
    let arr1 := arr0.set g.historyPos (Slot.ptr linePtr)
    let pos := g.historyPos + 1
    let size := if pos ≥ g.historyBuffSize then g.historyBuffSize + LSH_TOK_BUFSIZE
      else g.historyBuffSize
    let arr2 := if pos ≥ g.historyBuffSize then reallocSlots (some arr1) size else arr1
    if pos < arr2.length then some ⟨some (arr2.set pos Slot.null), pos, size⟩ else none
  else none

/-- What `lsh_split_line` leaves behind: the returned tokens, the contents of
the caller's line buffer after the destructive `strtok` passes, and the history
globals. -/
structure SplitResult where
  tokens : List (List Nat)
  line : List Nat
  globals : Globals
deriving DecidableEq, Repr

/-- The function `lsh_split_line` on the C string `line` with history globals
`g`.  `linePtr` is the copy taken on lines 151-152 before tokenizing starts.
`none` stands for a store outside an array. -/
def lsh_split_line (g : Globals) (line : List Nat) : Option SplitResult :=
  let linePtr := line
  match lsh_split_loop (line.length + 1) ⟨LSH_TOK_BUFSIZE, []⟩ [] line with
  | none => none
  | some (a, mem) =>
    if a.tokens.length < a.bufsize then
      match a.tokens with
      | [] => some ⟨a.tokens, mem, g⟩
      | _ :: _ =>
        match archive g linePtr with
        | none => none
        | some g1 => some ⟨a.tokens, mem, g1⟩
    else none

/-- The history globals hold exactly the entries `es`, oldest first: the count
`historyPos` is their number and, once the array is allocated, it has
`historyBuffSize` cells, which are the entries, then the NULL sentinel, then
cells not in use.  Before the first entry is archived the array is not
allocated: the array is allocated when the first entry is archived. -/
def Globals.Holds (g : Globals) (es : List (List Nat)) : Prop :=
  g.historyPos = es.length ∧
    match g.history with
    | none => es = [] ∧ 0 < g.historyBuffSize
    | some arr =>
      es ≠ [] ∧ arr.length = g.historyBuffSize ∧ ∃ tl, arr = es.map Slot.ptr ++ Slot.null :: tl

/-- The history globals after the loop of `lsh_loop` has passed the given lines
through `lsh_split_line` one after the other (lines 405-406; `lsh_execute` and
the two `free` calls do not touch the history globals). -/
def submitLines : Globals → List (List Nat) → Option Globals
  | g, [] => some g
  | g, line :: more =>
    match lsh_split_line g line with
    | none => none
    | some r => submitLines r.globals more

/-- The fields of a line as the specification words them: split at every
delimiter, then discard the empty fields. -/
def nonEmptyFields (line : List Nat) : List (List Nat) :=
  (line.splitOnP isDelim).filter (fun t => !t.isEmpty)

/-- A line put together from runs of delimiters and the tokens between them:
the first run, the first token, the second run, and so on up to the run after
the last token. -/
def weave : List (List Nat) → List (List Nat) → List Nat
  | [], _ => []
  | gap :: _, [] => gap
  | gap :: gaps, tok :: toks => gap ++ tok ++ weave gaps toks

/-! ## Builtins, launcher and dispatcher (lines 211-394) -/

/-- An observable action of a call, in program order.  Standard output is one
byte stream: `write(STDOUT_FILENO, ..)` and `printf` both append to it. -/
inductive Effect where
  | stdout (bs : List Nat) : Effect
  | stderr (bs : List Nat) : Effect
  | perror (tag : List Nat) : Effect
  | chdir (path : List Nat) : Effect
  | fork : Effect
  | execvp (file : List Nat) (argv : List (List Nat)) : Effect
  | waitpid (pid : Int) : Effect
  | exit (status : Int) : Effect
deriving DecidableEq, Repr

/-- How a call ends: it returns a value, it does not return to its caller (the
process image was replaced, the process exited, or the call blocks for ever),
or it runs into undefined behaviour. -/
inductive Ret where
  | value (v : Int) : Ret
  | noReturn : Ret
  | undefined : Ret
deriving DecidableEq, Repr

/-- A finished call: how it ended and what it did. -/
structure Call where
  ret : Ret
  effects : List Effect
deriving DecidableEq, Repr

/-- The bytes a call appended to standard output. -/
def stdoutOf : List Effect → List Nat
  | [] => []
  | Effect.stdout bs :: more => bs ++ stdoutOf more
  | _ :: more => stdoutOf more

/-- A status reported by `waitpid(pid, &status, WUNTRACED)`. -/
inductive WaitStatus where
  | exited (code : Nat) : WaitStatus
  | signaled (sig : Nat) : WaitStatus
  | stopped (sig : Nat) : WaitStatus
deriving DecidableEq, Repr

/-- The macro `WIFEXITED`. -/
def WIFEXITED : WaitStatus → Bool
  | WaitStatus.exited _ => true
  | _ => false

/-- The macro `WIFSIGNALED`. -/
def WIFSIGNALED : WaitStatus → Bool
  | WaitStatus.signaled _ => true
  | _ => false

/-- What the operating system answers to the calls of one command: the value
`fork` returns in the process that runs the code, whether `execvp` replaces the
image, the value `chdir` returns, and the statuses `waitpid` reports one after
the other (after the last of them it blocks). -/
structure Os where
  forkResult : Int
  execvpOk : Bool
  chdirResult : Int
  waitStatuses : List WaitStatus
deriving DecidableEq, Repr

/-- The function `lsh_num_args` (lines 211-220): the number of cells before the
NULL sentinel. -/
def lsh_num_args : List (List Nat) → Nat
  | [] => 0
  | _ :: more => lsh_num_args more + 1

/-- The do-while loop of lines 248-253 over the statuses still to come. -/
def lsh_launch_wait (pid : Int) : List WaitStatus → Call
  | [] => ⟨Ret.noReturn, [Effect.waitpid pid]⟩
  | status :: more =>
    if !WIFEXITED status && !WIFSIGNALED status then
      ⟨(lsh_launch_wait pid more).ret, Effect.waitpid pid :: (lsh_launch_wait pid more).effects⟩
    else ⟨Ret.value 1, [Effect.waitpid pid]⟩

/-- The function `lsh_launch` (lines 222-256) as run by one process: the child
when `fork` returned 0, the shell otherwise. -/
def lsh_launch (os : Os) (args : List (List Nat)) : Call :=
  if os.forkResult = 0 then
    if os.execvpOk then ⟨Ret.noReturn, [Effect.fork, Effect.execvp (args.headD []) args]⟩
    else
      ⟨Ret.noReturn,
        [Effect.fork, Effect.execvp (args.headD []) args, Effect.perror (bytes "lsh"),
          Effect.exit 1]⟩
  else if os.forkResult < 0 then ⟨Ret.value 1, [Effect.fork, Effect.perror (bytes "lsh")]⟩
  else
    ⟨(lsh_launch_wait os.forkResult os.waitStatuses).ret,
      Effect.fork :: (lsh_launch_wait os.forkResult os.waitStatuses).effects⟩

/-- The table `builtin_str` (lines 266-271). -/
def builtin_str : List (List Nat) :=
  [bytes "cd", bytes "help", bytes "exit", bytes "say", bytes "history"]

/-- The function `lsh_num_builtins` (lines 280-283). -/
def lsh_num_builtins : Nat := builtin_str.length

/-- The function `lsh_cd` (lines 286-300). -/
def lsh_cd (os : Os) (args : List (List Nat)) : Call :=
  match args.get? 1 with
  | none => ⟨Ret.value 1, [Effect.stderr (bytes "lsh: expected argument to \"cd\"\n")]⟩
  | some dir =>
    if os.chdirResult ≠ 0 then ⟨Ret.value 1, [Effect.chdir dir, Effect.perror (bytes "lsh")]⟩
    else ⟨Ret.value 1, [Effect.chdir dir]⟩

/-- The function `lsh_help` (lines 302-316). -/
def lsh_help (_args : List (List Nat)) : Call :=
  ⟨Ret.value 1,
    [Effect.stdout (bytes "KJ" ++ [39] ++ bytes "s LSH\n"),
      Effect.stdout (bytes "Type program names and arguments, and hit enter.\n"),
      Effect.stdout (bytes "The following are built in:\n")] ++
    builtin_str.map (fun name => Effect.stdout ([32] ++ name ++ [10])) ++
    [Effect.stdout (bytes "Use the man command for information on other programs.\n")]⟩

/-- The function `lsh_exit` (lines 318-321). -/
def lsh_exit (_args : List (List Nat)) : Call := ⟨Ret.value 0, []⟩

/-- The size passed to `malloc` on lines 331-338: `(num - 2) + 1` plus the
lengths of `args[1 .. num-1]`. -/
def lsh_say_size (args : List (List Nat)) : Int :=
  (((lsh_num_args args : Nat) : Int) - 2) + 1 + (((args.drop 1).map List.length).sum : Nat)

/-- The string built on lines 344-351: `args[1]`, then a space and the next
word for every further cell before the sentinel. -/
def lsh_say_join (first : List Nat) (more : List (List Nat)) : List Nat :=
  more.foldl (fun res w => res ++ [32] ++ w) first

/-- The function `lsh_say` (lines 323-360).  The joined string grows with every
`strcat`, so it stays inside the allocation exactly when its final length plus
the terminator does. -/
def lsh_say (args : List (List Nat)) : Call :=
  match args.get? 1 with
  | none =>
    ⟨Ret.value 1,
      [Effect.stderr (bytes "lsh: expected argument to \"say\""), Effect.stdout [10]]⟩
  | some first =>
    let res := lsh_say_join first (args.drop 2)
    if ((res.length + 1 : Nat) : Int) ≤ lsh_say_size args then
      ⟨Ret.value 1, [Effect.stdout res, Effect.stdout [10]]⟩
    else ⟨Ret.undefined, []⟩

/-- The call `printf("%s\n", history[i])` on line 371; `none` when the cell
holds no string. -/
def lsh_history_print : Slot → Option Effect
  | Slot.ptr s => some (Effect.stdout (s ++ [10]))
  | _ => none

/-- The loop of lines 368-373 over the cells from `history[i]` on: print
`history[i]` while `history[i + 1]` is not NULL.  `none` stands for a read
outside the array or of a cell that was never written. -/
def lsh_history_scan : List Slot → Option (List Effect)
  | [] => none
  | cur :: more =>
    match more.head? with
    | none => none
    | some Slot.uninit => none
    | some Slot.null => some []
    | some (Slot.ptr _) =>
      match lsh_history_print cur, lsh_history_scan more with
      | some eff, some effs => some (eff :: effs)
      | _, _ => none

/-- The function `lsh_history` (lines 362-375). -/
def lsh_history (g : Globals) : Call :=
  match g.history with
  | none => ⟨Ret.value 1, []⟩
  | some arr =>
    match lsh_history_scan arr with
    | none => ⟨Ret.undefined, []⟩
    | some effs => ⟨Ret.value 1, effs⟩

/-- The function `strcmp`, up to the sign of its result. -/
def strcmp : List Nat → List Nat → Int
  | [], [] => 0
  | [], _ :: _ => -1
  | _ :: _, [] => 1
  | a :: s, b :: t => if a = b then strcmp s t else if a < b then -1 else 1

/-- The loop of lines 386-392 over the rows of the builtin table still to be
compared, ending in the call of line 393. -/
def lsh_execute_scan (launch : List (List Nat) → Call) (args : List (List Nat))
    (arg0 : List Nat) : List (List Nat × (List (List Nat) → Call)) → Call
  | [] => launch args
  | (name, func) :: more =>
    if strcmp arg0 name = 0 then func args else lsh_execute_scan launch args arg0 more

/-- The function `lsh_execute` (lines 377-394) over a table of handlers
`funcs`, row `i` of which goes with `builtin_str[i]`, and a launcher. -/
def lsh_execute_with (funcs : List (List (List Nat) → Call))
    (launch : List (List Nat) → Call) (args : List (List Nat)) : Call :=
  match args with
  | [] => ⟨Ret.value 1, []⟩
  | arg0 :: _ => lsh_execute_scan launch args arg0 (builtin_str.zip funcs)

/-- The table `builtin_func` (lines 273-278); `lsh_history` ignores its
argument and reads the history globals. -/
def builtin_func (os : Os) (g : Globals) : List (List (List Nat) → Call) :=
  [lsh_cd os, lsh_help, lsh_exit, lsh_say, fun _ => lsh_history g]

/-- The function `lsh_execute` with the program's own handlers. -/
def lsh_execute (os : Os) (g : Globals) (args : List (List Nat)) : Call :=
  lsh_execute_with (builtin_func os g) (lsh_launch os) args

/-! ## Theorems about the line editor -/

/-- The C string view of a region without NUL bytes is the region itself. -/
theorem cstr_eq_self (s : List Nat) (h : ∀ b ∈ s, b ≠ 0) : cstr s = s := by
  unfold cstr
  rw [List.takeWhile_eq_self_iff]
  intro b hb
  simpa using h b hb

/-- One iteration of the loop on a byte other than escape. -/
theorem read_loop_cons (g : Globals) (e : Editor) (c : Nat) (rest : List Nat) (h : c ≠ 27) :
    lsh_read_line_loop g e (c :: rest) =
      if c = 10 then
        if e.position < e.bufsize then
          ReadOutcome.returned (cstr e.buffer) { e with out := e.out ++ [10] } rest
        else ReadOutcome.undefined
      else if c = 4 then
        if e.position < e.bufsize then ReadOutcome.returned (cstr e.buffer) e rest
        else ReadOutcome.undefined
      else if c = 127 then
        match e.backspace with
        | none => ReadOutcome.undefined
        | some e1 => lsh_read_line_loop g e1 rest
      else
        match e.normalChar c with
        | none => ReadOutcome.undefined
        | some e1 => lsh_read_line_loop g e1 rest := by
  rcases rest with _ | ⟨c1, _ | ⟨c2, r⟩⟩ <;> simp [lsh_read_line_loop, h]

/-- One iteration of the loop on an escape byte followed by two bytes. -/
theorem read_loop_esc (g : Globals) (e : Editor) (c1 c2 : Nat) (rest : List Nat) :
    lsh_read_line_loop g e (27 :: c1 :: c2 :: rest) =
      match e.escape g c1 c2 with
      | none => ReadOutcome.undefined
      | some e1 => lsh_read_line_loop g e1 rest := by
  simp [lsh_read_line_loop]

/-- A normal character typed when the capacity is the least multiple of
`LSH_RL_BUFSIZE` above the cursor keeps the capacity of that form, as long as
the capacity that the longer buffer needs is an `int`. -/
theorem normalChar_plain (e : Editor) (c : Nat)
    (hcap : e.bufsize = LSH_RL_BUFSIZE * (e.buffer.length / LSH_RL_BUFSIZE + 1))
    (hint : e.buffer.length + 1 + LSH_RL_BUFSIZE ≤ INT_MAX) :
    e.normalChar c = some
      ⟨LSH_RL_BUFSIZE * ((e.buffer.length + 1) / LSH_RL_BUFSIZE + 1), e.buffer ++ [c],
        e.historyIndex, e.out ++ [c]⟩ := by
  obtain ⟨bs, buf, hi, out⟩ := e
  simp only [LSH_RL_BUFSIZE, INT_MAX] at hcap hint ⊢
  simp only [Editor.normalChar, Editor.position, LSH_RL_BUFSIZE, INT_MAX, List.length_append,
    List.length_singleton]
  have h1 : buf.length < bs := by omega
  rw [if_pos h1]
  by_cases h2 : buf.length + 1 ≥ bs
  · have h3 : bs + 1024 ≤ 2147483647 := by omega
    rw [if_pos h2, if_pos h3]
    simp only [Option.some.injEq, Editor.mk.injEq, and_true, true_and]
    omega
  · rw [if_neg h2]
    simp only [Option.some.injEq, Editor.mk.injEq, and_true, true_and]
    omega

/-- A normal character typed into a buffer of 2147482623 bytes whose capacity
is 2147482624: the store fills the buffer and the new capacity 2147483648 is
not an `int`. -/
theorem normalChar_int_overflow (e : Editor) (c : Nat) (hlen : e.buffer.length = 2147482623)
    (hcap : e.bufsize = 2147482624) : e.normalChar c = none := by
  obtain ⟨bs, buf, hi, out⟩ := e
  simp only at hlen hcap
  simp only [Editor.normalChar, Editor.position, LSH_RL_BUFSIZE, INT_MAX, List.length_append,
    List.length_singleton]
  have h1 : buf.length < bs := by omega
  have h2 : buf.length + 1 ≥ bs := by omega
  have h3 : ¬ bs + 1024 ≤ 2147483647 := by omega
  rw [if_pos h1, if_pos h2, if_neg h3]

/-- Typing plain bytes and then a newline from any loop state whose capacity is
the least multiple of `LSH_RL_BUFSIZE` above the cursor, as long as the
capacity that the whole line needs is an `int`. -/
theorem read_loop_plain (g : Globals) (s : List Nat) :
    ∀ (e : Editor) (rest : List Nat),
      (∀ b ∈ s, b ≠ 10 ∧ b ≠ 4 ∧ b ≠ 127 ∧ b ≠ 27) →
      e.bufsize = LSH_RL_BUFSIZE * (e.buffer.length / LSH_RL_BUFSIZE + 1) →
      e.buffer.length + s.length + LSH_RL_BUFSIZE ≤ INT_MAX →
      lsh_read_line_loop g e (s ++ 10 :: rest) =
        ReadOutcome.returned (cstr (e.buffer ++ s))
          ⟨LSH_RL_BUFSIZE * ((e.buffer.length + s.length) / LSH_RL_BUFSIZE + 1),
            e.buffer ++ s, e.historyIndex, e.out ++ s ++ [10]⟩ rest := by
  induction s with
  | nil =>
    intro e rest _ hcap _
    have hlt : e.position < e.bufsize := by
      simp only [Editor.position, LSH_RL_BUFSIZE] at hcap ⊢
      omega
    rw [List.nil_append, read_loop_cons g e 10 rest (by decide), if_pos rfl, if_pos hlt]
    simp [hcap]
  | cons b s ih =>
    intro e rest hs hcap hint
    obtain ⟨h10, h4, h127, h27⟩ := hs b (List.mem_cons_self b s)
    have hs2 : ∀ x ∈ s, x ≠ 10 ∧ x ≠ 4 ∧ x ≠ 127 ∧ x ≠ 27 :=
      fun x hx => hs x (List.mem_cons_of_mem b hx)
    simp only [List.length_cons] at hint
    rw [List.cons_append, read_loop_cons g e b _ h27, if_neg h10, if_neg h4, if_neg h127,
      normalChar_plain e b hcap (by omega)]
    simp only
    rw [ih _ rest hs2 (by simp) (by simp only [List.length_append, List.length_singleton]; omega)]
    simp [Nat.add_assoc, Nat.add_comm 1]

/-- Claim C1, amended: for every sequence `s` of printable bytes (32..126)
holding none of the control bytes newline, end-of-transmission, delete, escape,
and shorter than 2147482624 bytes (2^31 - 1024, so that every capacity the
buffer grows to is an `int`), the call `lsh_read_line` fed `s` followed by a
newline returns the line `s`, having echoed exactly `s` followed by one
newline, also when `s` is as long as the initial capacity of 1024 or longer,
and whatever the history; the capacity has grown to the least multiple of 1024
above the length. -/
theorem lsh_read_line_plain_line (g : Globals) (s : List Nat)
    (hprint : ∀ b ∈ s, 32 ≤ b ∧ b ≤ 126)
    (hctl : ∀ b ∈ s, b ≠ 10 ∧ b ≠ 4 ∧ b ≠ 127 ∧ b ≠ 27)
    (hlen : s.length + LSH_RL_BUFSIZE ≤ INT_MAX) :
    lsh_read_line g (s ++ [10]) =
      ReadOutcome.returned s
        ⟨LSH_RL_BUFSIZE * (s.length / LSH_RL_BUFSIZE + 1), s, -1, s ++ [10]⟩ [] := by
  have h := read_loop_plain g s Editor.init [] hctl (by simp [Editor.init, LSH_RL_BUFSIZE])
    (by simpa [Editor.init] using hlen)
  have hz : ∀ b ∈ s, b ≠ 0 := fun b hb => by have := (hprint b hb).1; omega
  simpa [lsh_read_line, Editor.init, cstr_eq_self s hz] using h

/-- Witness for C1: typing `ls -l` and Enter. -/
theorem lsh_read_line_plain_line_witness :
    lsh_read_line Globals.init ([108, 115, 32, 45, 108] ++ [10]) =
      ReadOutcome.returned [108, 115, 32, 45, 108]
        ⟨LSH_RL_BUFSIZE * (([108, 115, 32, 45, 108] : List Nat).length / LSH_RL_BUFSIZE + 1),
          [108, 115, 32, 45, 108], -1, [108, 115, 32, 45, 108] ++ [10]⟩ [] :=
  lsh_read_line_plain_line Globals.init [108, 115, 32, 45, 108] (by decide) (by decide)
    (by simp [LSH_RL_BUFSIZE, INT_MAX])

/-! ## Theorems about the tokenizer -/

/-- The first element a `dropWhile` keeps fails the predicate. -/
theorem dropWhile_head_not {α : Type} (p : α → Bool) :
    ∀ (l : List α) (d : α) (r : List α), l.dropWhile p = d :: r → p d = false := by
  intro l
  induction l with
  | nil => intro d r h; simp at h
  | cons a l ih =>
    intro d r h
    by_cases ha : p a = true
    · rw [List.dropWhile_cons_of_pos ha] at h
      exact ih d r h
    · rw [List.dropWhile_cons_of_neg ha] at h
      obtain ⟨rfl, -⟩ := List.cons.inj h
      simpa using ha

/-- A leading delimiter is skipped by `strtok` and only shows in the bytes
walked over. -/
theorem strtok_cons_delim (c : Nat) (s : List Nat) (hc : isDelim c = true) :
    strtok (c :: s) = (strtok s).map (fun t => ⟨t.token, c :: t.walked, t.rest⟩) := by
  unfold strtok
  simp only [List.takeWhile_cons_of_pos hc, List.dropWhile_cons_of_pos hc]
  cases h1 : s.dropWhile isDelim with
  | nil => simp
  | cons x xs =>
    cases h2 : (x :: xs).dropWhile (fun c => !isDelim c) with
    | nil => simp
    | cons y ys => simp

/-- A line of delimiters only has no field. -/
theorem nonEmptyFields_all_delim (s : List Nat) (h : ∀ c ∈ s, isDelim c = true) :
    nonEmptyFields s = [] := by
  induction s with
  | nil => simp [nonEmptyFields, List.splitOnP_nil]
  | cons c s ih =>
    have hc := h c (List.mem_cons_self c s)
    have hs := ih (fun x hx => h x (List.mem_cons_of_mem c hx))
    unfold nonEmptyFields at hs ⊢
    rw [List.splitOnP_cons, if_pos hc]
    simpa using hs

/-- A leading delimiter contributes no field. -/
theorem nonEmptyFields_cons_delim (c : Nat) (s : List Nat) (hc : isDelim c = true) :
    nonEmptyFields (c :: s) = nonEmptyFields s := by
  unfold nonEmptyFields
  rw [List.splitOnP_cons, if_pos hc]
  simp

/-- When `strtok` finds no token the line has no field. -/
theorem strtok_none_fields (s : List Nat) (h : strtok s = none) : nonEmptyFields s = [] := by
  induction s with
  | nil => simp [nonEmptyFields, List.splitOnP_nil]
  | cons c s ih =>
    by_cases hc : isDelim c = true
    · rw [strtok_cons_delim c s hc] at h
      rw [nonEmptyFields_cons_delim c s hc]
      exact ih (by simpa using h)
    · exfalso
      unfold strtok at h
      simp only [List.dropWhile_cons_of_neg hc] at h
      split at h <;> simp at h

/-- When `strtok` finds a token, it is the first field of the line, the text at
the saved pointer holds the remaining fields and is shorter than the line, and
the token is non-empty and free of delimiters. -/
theorem strtok_some_fields (s : List Nat) :
    ∀ t, strtok s = some t →
      nonEmptyFields s = t.token :: nonEmptyFields t.rest ∧ t.rest.length < s.length ∧
        t.token ≠ [] ∧ ∀ c ∈ t.token, isDelim c = false := by
  induction s with
  | nil => intro t h; simp [strtok] at h
  | cons c s ih =>
    intro t h
    by_cases hc : isDelim c = true
    · rw [strtok_cons_delim c s hc] at h
      cases hs : strtok s with
      | none => rw [hs] at h; simp at h
      | some u =>
        rw [hs] at h
        simp only [Option.map_some', Option.some.injEq] at h
        obtain ⟨h1, h2, h3, h4⟩ := ih u hs
        subst h
        refine ⟨?_, ?_, h3, h4⟩
        · rw [nonEmptyFields_cons_delim c s hc]; exact h1
        · simp only [List.length_cons]; omega
    · have hcf : isDelim c = false := by simpa using hc
      have hnd : (fun x => !isDelim x) c = true := by simp [hcf]
      have htok : ∀ x ∈ (c :: s).takeWhile (fun x => !isDelim x), isDelim x = false := by
        intro x hx
        have := List.mem_takeWhile_imp hx
        simpa using this
      have hsplit := List.takeWhile_append_dropWhile (fun x => !isDelim x) (c :: s)
      have hne : (c :: s).takeWhile (fun x => !isDelim x) ≠ [] := by
        simp [List.takeWhile_cons, hcf]
      unfold strtok at h
      simp only [List.dropWhile_cons_of_neg hc, List.takeWhile_cons_of_neg hc] at h
      cases hd : (c :: s).dropWhile (fun x => !isDelim x) with
      | nil =>
        rw [hd] at h
        simp only [Option.some.injEq] at h
        subst h
        simp only
        rw [hd, List.append_nil] at hsplit
        refine ⟨?_, by simp, hne, htok⟩
        have hall : ∀ x ∈ c :: s, ¬ isDelim x = true := by
          intro x hx
          rw [← hsplit] at hx
          simp [htok x hx]
        rw [hsplit]
        unfold nonEmptyFields
        rw [List.splitOnP_eq_single isDelim (c :: s) hall]
        simp [List.splitOnP_nil]
      | cons d r =>
        rw [hd] at h
        simp only [Option.some.injEq] at h
        subst h
        simp only
        have hdd : isDelim d = true := by
          have := dropWhile_head_not (fun x => !isDelim x) (c :: s) d r hd
          simpa using this
        rw [hd] at hsplit
        refine ⟨?_, ?_, hne, htok⟩
        · have hall : ∀ x ∈ (c :: s).takeWhile (fun x => !isDelim x), ¬ isDelim x = true := by
            intro x hx
            simp [htok x hx]
          have hfirst := List.splitOnP_first isDelim _ hall d hdd r
          rw [hsplit] at hfirst
          unfold nonEmptyFields
          rw [hfirst, List.filter_cons_of_pos]
          simpa using hne
        · have hl := congrArg List.length hsplit
          simp only [List.length_append, List.length_cons] at hl ⊢
          omega

/-- The history array of globals that hold entries. -/
theorem Holds.entry_eq {g : Globals} {es : List (List Nat)} (hg : g.Holds es) (i : Nat)
    (hi : i < es.length) : g.entry (i : Int) = es.get? i := by
  obtain ⟨-, h⟩ := hg
  unfold Globals.entry
  cases hh : g.history with
  | none =>
    rw [hh] at h
    obtain ⟨rfl, -⟩ := h
    simp at hi
  | some arr =>
    rw [hh] at h
    obtain ⟨-, -, tl, rfl⟩ := h
    have h1 : i < (es.map Slot.ptr).length := by simpa using hi
    simp only [Int.natCast_nonneg, if_true, Int.toNat_ofNat, List.get?_eq_getElem?]
    rw [List.getElem?_append_left h1]
    simp [List.getElem?_map, List.getElem?_eq_getElem hi]

/-- The cells below `historyPos` of globals that hold entries are the entries. -/
theorem Holds.stored_eq {g : Globals} {es : List (List Nat)} (hg : g.Holds es) :
    g.stored = es.map Slot.ptr := by
  obtain ⟨hpos, h⟩ := hg
  unfold Globals.stored
  cases hh : g.history with
  | none =>
    rw [hh] at h
    obtain ⟨rfl, -⟩ := h
    rfl
  | some arr =>
    rw [hh] at h
    obtain ⟨-, -, tl, rfl⟩ := h
    simp only [hpos]
    rw [List.take_append_of_le_length (by simp)]
    simp

/-- Archiving a line into globals that hold `es` succeeds and yields globals
that hold `es` followed by the line; the capacity does not shrink. -/
theorem archive_holds (g : Globals) (es : List (List Nat)) (l : List Nat) (hg : g.Holds es) :
    ∃ g1, archive g l = some g1 ∧ g1.Holds (es ++ [l]) ∧
      g.historyBuffSize ≤ g1.historyBuffSize := by
  obtain ⟨bsz, pos, size⟩ := g
  obtain ⟨hpos, h⟩ := hg
  simp only at hpos h
  subst hpos
  cases bsz with
  | none =>
    simp only at h
    obtain ⟨rfl, hsz⟩ := h
    obtain ⟨k, rfl⟩ : ∃ k, size = k + 1 := ⟨size - 1, by omega⟩
    by_cases hk : k = 0
    · subst hk
      refine ⟨_, by simp [archive, reallocSlots, LSH_TOK_BUFSIZE, List.replicate]; rfl, ?_, ?_⟩
      · refine ⟨rfl, ?_⟩
        simp only [LSH_TOK_BUFSIZE]
        exact ⟨by simp, by simp, List.replicate 63 Slot.uninit, by simp [List.replicate]⟩
      · simp [LSH_TOK_BUFSIZE]
    · obtain ⟨j, rfl⟩ : ∃ j, k = j + 1 := ⟨k - 1, by omega⟩
      refine ⟨⟨some (Slot.ptr l :: Slot.null :: List.replicate j Slot.uninit), 1, j + 1 + 1⟩,
        ?_, ?_, ?_⟩
      · simp [archive, reallocSlots, List.replicate]
      · exact ⟨rfl, by simp, by simp, List.replicate j Slot.uninit, by simp⟩
      · simp
  | some arr =>
    simp only at h
    obtain ⟨-, hlen, tl, rfl⟩ := h
    have hmap : (es.map Slot.ptr).length = es.length := by simp
    have hset : (es.map Slot.ptr ++ Slot.null :: tl).set es.length (Slot.ptr l) =
        es.map Slot.ptr ++ Slot.ptr l :: tl := by
      rw [List.set_append_right _ _ (by simp)]
      simp
    have hlen2 : es.length + (tl.length + 1) = size := by
      simpa using hlen
    cases tl with
    | nil =>
      refine ⟨⟨some (es.map Slot.ptr ++ Slot.ptr l :: Slot.null ::
          List.replicate (LSH_TOK_BUFSIZE - 1) Slot.uninit), es.length + 1,
          size + LSH_TOK_BUFSIZE⟩, ?_, ?_, ?_⟩
      · simp only [List.length_nil] at hlen2
        have hge : es.length + 1 ≥ size := by omega
        simp only [archive, hset, if_pos hge, reallocSlots]
        have hl1 : (es.map Slot.ptr ++ [Slot.ptr l]).length = size := by simpa using hlen2
        rw [List.take_of_length_le (by rw [hl1]; omega), hl1]
        have hlt : es.length < (es.map Slot.ptr ++ [Slot.null]).length := by simp
        rw [if_pos hlt]
        have e64 : size + LSH_TOK_BUFSIZE - size = 63 + 1 := by simp [LSH_TOK_BUFSIZE]
        rw [e64, List.replicate_succ]
        have hlt2 : es.length + 1 <
            (es.map Slot.ptr ++ [Slot.ptr l] ++ Slot.uninit :: List.replicate 63 Slot.uninit).length := by
          simp
        rw [if_pos hlt2]
        simp only [LSH_TOK_BUFSIZE, Option.some.injEq, Globals.mk.injEq, and_true]
        rw [List.set_append_right _ _ (by simp)]
        simp
      · refine ⟨by simp, by simp, ?_, List.replicate (LSH_TOK_BUFSIZE - 1) Slot.uninit, by simp⟩
        simp only [List.length_nil] at hlen2
        simp [LSH_TOK_BUFSIZE]
        omega
      · simp
    | cons x tl2 =>
      refine ⟨⟨some (es.map Slot.ptr ++ Slot.ptr l :: Slot.null :: tl2), es.length + 1, size⟩,
        ?_, ?_, ?_⟩
      · simp only [List.length_cons] at hlen2
        have hge : ¬ es.length + 1 ≥ size := by omega
        have hlt : es.length < (es.map Slot.ptr ++ Slot.null :: x :: tl2).length := by simp
        simp only [archive, hset, if_neg hge, if_pos hlt]
        have hlt2 : es.length + 1 < (es.map Slot.ptr ++ Slot.ptr l :: x :: tl2).length := by
          simp
        rw [if_pos hlt2]
        simp only [Option.some.injEq, Globals.mk.injEq, and_true]
        rw [List.set_append_right _ _ (by simp)]
        simp
      · refine ⟨by simp, by simp, ?_, tl2, by simp⟩
        simp only [List.length_cons] at hlen2
        simp
        omega
      · simp

/-- The bytes `strtok` walks over and the text it leaves account for the whole
text: nothing is inserted or removed, a delimiter is only overwritten. -/
theorem strtok_walked_length (s : List Nat) :
    ∀ t, strtok s = some t → t.walked.length + t.rest.length = s.length := by
  intro t h
  unfold strtok at h
  have h1 := congrArg List.length (List.takeWhile_append_dropWhile isDelim s)
  have h2 := congrArg List.length
    (List.takeWhile_append_dropWhile (fun c => !isDelim c) (s.dropWhile isDelim))
  simp only [List.length_append] at h1 h2
  cases hd : s.dropWhile isDelim with
  | nil => rw [hd] at h; simp at h
  | cons x xs =>
    rw [hd] at h h2 h1
    simp only at h
    cases hd2 : (x :: xs).dropWhile (fun c => !isDelim c) with
    | nil =>
      rw [hd2] at h h2
      simp only [Option.some.injEq] at h
      subst h
      simp only [List.length_append, List.length_nil, List.length_cons] at h1 h2 ⊢
      omega
    | cons y ys =>
      rw [hd2] at h h2
      simp only [Option.some.injEq] at h
      subst h
      simp only [List.length_append, List.length_cons, List.length_nil] at h1 h2 ⊢
      omega

/-- A store into a token array with a free cell succeeds and leaves a free
cell. -/
theorem TokArr.push_ok (a : TokArr) (t : List Nat) (h : a.tokens.length < a.bufsize) :
    ∃ a1, a.push t = some a1 ∧ a1.tokens = a.tokens ++ [t] ∧ a1.tokens.length < a1.bufsize := by
  unfold TokArr.push
  rw [if_pos h]
  by_cases h2 : (a.tokens ++ [t]).length ≥ a.bufsize
  · refine ⟨_, by simp only [h2]; rfl, rfl, ?_⟩
    simp only [List.length_append, List.length_singleton, LSH_TOK_BUFSIZE] at h2 ⊢
    omega
  · refine ⟨_, by simp only [h2]; rfl, rfl, ?_⟩
    simp only [List.length_append, List.length_singleton] at h2 ⊢
    omega

/-- With more fuel than the text is long, the tokenizing loop ends normally and
has appended the fields of the text to the token array. -/
theorem lsh_split_loop_fields :
    ∀ (fuel : Nat) (s : List Nat) (a : TokArr) (mem : List Nat),
      s.length < fuel → a.tokens.length < a.bufsize →
      ∃ a1 mem1, lsh_split_loop fuel a mem s = some (a1, mem1) ∧
        a1.tokens = a.tokens ++ nonEmptyFields s ∧ a1.tokens.length < a1.bufsize ∧
        mem1.length = mem.length + s.length := by
  intro fuel
  induction fuel with
  | zero => intro s a mem h; omega
  | succ n ih =>
    intro s a mem hlen ha
    unfold lsh_split_loop
    cases hs : strtok s with
    | none =>
      refine ⟨a, mem ++ s, rfl, ?_, ha, by simp⟩
      rw [strtok_none_fields s hs, List.append_nil]
    | some t =>
      obtain ⟨hf, hrest, -, -⟩ := strtok_some_fields s t hs
      obtain ⟨a1, hpush, htoks, hfree⟩ := TokArr.push_ok a t.token ha
      obtain ⟨a2, mem2, hloop, htoks2, hfree2, hmem2⟩ :=
        ih t.rest a1 (mem ++ t.walked) (by omega) hfree
      refine ⟨a2, mem2, ?_, ?_, hfree2, ?_⟩
      · simp only [hpush, hloop]
      · rw [htoks2, htoks, hf, List.append_assoc, List.singleton_append]
      · rw [hmem2]
        have := strtok_walked_length s t hs
        simp only [List.length_append]
        omega

/-- Every field of a line is non-empty and free of delimiters. -/
theorem nonEmptyFields_mem :
    ∀ (n : Nat) (s : List Nat), s.length < n →
      ∀ t ∈ nonEmptyFields s, t ≠ [] ∧ ∀ c ∈ t, isDelim c = false := by
  intro n
  induction n with
  | zero => intro s h; omega
  | succ n ih =>
    intro s hlen t ht
    cases hs : strtok s with
    | none => rw [strtok_none_fields s hs] at ht; simp at ht
    | some u =>
      obtain ⟨hf, hrest, hne, hnd⟩ := strtok_some_fields s u hs
      rw [hf] at ht
      rcases List.mem_cons.mp ht with rfl | ht2
      · exact ⟨hne, hnd⟩
      · exact ih u.rest (by omega) t ht2

/-- A line has a field exactly when it holds a byte that is no delimiter. -/
theorem nonEmptyFields_ne_nil_iff (s : List Nat) :
    nonEmptyFields s ≠ [] ↔ ∃ c ∈ s, c ∉ LSH_TOK_DELIM := by
  constructor
  · intro h
    by_contra hall
    apply h
    apply nonEmptyFields_all_delim
    intro c hc
    by_contra hd
    exact hall ⟨c, hc, by simpa [isDelim] using hd⟩
  · rintro ⟨c, hc, hd⟩ h
    cases hs : strtok s with
    | none =>
      unfold strtok at hs
      cases hdw : s.dropWhile isDelim with
      | nil =>
        rw [List.dropWhile_eq_nil_iff] at hdw
        have := hdw c hc
        simp [isDelim] at this
        exact hd this
      | cons x xs =>
        rw [hdw] at hs
        simp only at hs
        split at hs <;> simp at hs
    | some u =>
      rw [(strtok_some_fields s u hs).1] at h
      simp at h

/-- What a call of `lsh_split_line` does on globals that hold `es`: it returns
the fields of the line, its working buffer keeps its length, a line without
field leaves the globals alone and a line with a field is archived. -/
theorem lsh_split_line_spec (g : Globals) (es : List (List Nat)) (line : List Nat)
    (hg : g.Holds es) :
    ∃ r, lsh_split_line g line = some r ∧ r.tokens = nonEmptyFields line ∧
      r.line.length = line.length ∧
      (nonEmptyFields line = [] → r.globals = g) ∧
      (nonEmptyFields line ≠ [] →
        r.globals.Holds (es ++ [line]) ∧ g.historyBuffSize ≤ r.globals.historyBuffSize) := by
  obtain ⟨a, mem, hloop, htoks, hfree, hmem⟩ :=
    lsh_split_loop_fields (line.length + 1) line ⟨LSH_TOK_BUFSIZE, []⟩ [] (by omega)
      (by simp [LSH_TOK_BUFSIZE])
  simp only [List.nil_append, List.length_nil, Nat.zero_add] at htoks hmem
  unfold lsh_split_line
  simp only [hloop, if_pos hfree]
  cases hf : nonEmptyFields line with
  | nil =>
    rw [hf] at htoks
    rw [htoks]
    exact ⟨_, rfl, rfl, hmem, fun _ => rfl, fun h => absurd rfl h⟩
  | cons t ts =>
    rw [hf] at htoks
    rw [htoks]
    obtain ⟨g1, harch, hholds, hsize⟩ := archive_holds g es line hg
    simp only [harch]
    exact ⟨_, rfl, rfl, hmem, fun h => by simp at h, fun _ => ⟨hholds, hsize⟩⟩

/-- The text `strtok` works on splits into the delimiters it skips, the token,
the delimiter that ends the token (none at the end of the text) and the text
at the saved pointer. -/
theorem strtok_decompose (s : List Nat) :
    ∀ t, strtok s = some t →
      ∃ d sep, s = d ++ t.token ++ sep ++ t.rest ∧ (∀ c ∈ d, isDelim c = true) ∧
        ((sep = [] ∧ t.rest = []) ∨ ∃ x, sep = [x] ∧ isDelim x = true) := by
  intro t h
  unfold strtok at h
  have h1 := List.takeWhile_append_dropWhile isDelim s
  have hd : ∀ c ∈ s.takeWhile isDelim, isDelim c = true :=
    fun c hc => List.mem_takeWhile_imp hc
  cases hs1 : s.dropWhile isDelim with
  | nil => rw [hs1] at h; simp at h
  | cons y ys =>
    rw [hs1] at h h1
    simp only at h
    have h2 := List.takeWhile_append_dropWhile (fun c => !isDelim c) (y :: ys)
    cases hs2 : (y :: ys).dropWhile (fun c => !isDelim c) with
    | nil =>
      rw [hs2] at h h2
      simp only [Option.some.injEq] at h
      subst h
      refine ⟨s.takeWhile isDelim, [], ?_, hd, Or.inl ⟨rfl, rfl⟩⟩
      simp only [List.append_nil] at h2 ⊢
      rw [h2, h1]
    | cons x r =>
      have hx : isDelim x = true := by
        have := dropWhile_head_not (fun c => !isDelim c) (y :: ys) x r hs2
        simpa using this
      rw [hs2] at h h2
      simp only [Option.some.injEq] at h
      subst h
      refine ⟨s.takeWhile isDelim, [x], ?_, hd, Or.inr ⟨x, rfl, hx⟩⟩
      simp only [List.append_assoc, List.singleton_append]
      rw [h2, h1]

/-- A run of delimiters put in front of the first run of a weave. -/
theorem weave_prepend (sep gap : List Nat) (gaps toks : List (List Nat)) :
    weave ((sep ++ gap) :: gaps) toks = sep ++ weave (gap :: gaps) toks := by
  cases toks with
  | nil => simp [weave]
  | cons t ts => simp [weave]

/-- Every line is its fields woven with runs of delimiters: one run, possibly
empty, before the first field and after the last one, and a non-empty run
between two consecutive fields. -/
theorem nonEmptyFields_weave :
    ∀ (n : Nat) (s : List Nat), s.length < n →
      ∃ gaps : List (List Nat), gaps.length = (nonEmptyFields s).length + 1 ∧
        (∀ gp ∈ gaps, ∀ c ∈ gp, isDelim c = true) ∧
        (∀ i : Nat, 0 < i → i < (nonEmptyFields s).length → gaps.get? i ≠ some []) ∧
        weave gaps (nonEmptyFields s) = s := by
  intro n
  induction n with
  | zero => intro s h; omega
  | succ n ih =>
    intro s hlen
    cases hs : strtok s with
    | none =>
      have hall : ∀ c ∈ s, isDelim c = true := by
        unfold strtok at hs
        cases hd : s.dropWhile isDelim with
        | nil => exact fun c hc => (List.dropWhile_eq_nil_iff.mp hd) c hc
        | cons x xs =>
          rw [hd] at hs
          simp only at hs
          split at hs <;> simp at hs
      rw [strtok_none_fields s hs]
      exact ⟨[s], rfl, by simpa using hall, fun i h0 h1 => by simp at h1, rfl⟩
    | some t =>
      obtain ⟨hf, hrest, -, -⟩ := strtok_some_fields s t hs
      obtain ⟨d, sep, hsplit, hd, hsep⟩ := strtok_decompose s t hs
      obtain ⟨gaps, hglen, hgdel, hginner, hweave⟩ := ih t.rest (by omega)
      cases gaps with
      | nil => simp at hglen
      | cons g0 gs =>
        refine ⟨d :: (sep ++ g0) :: gs, ?_, ?_, ?_, ?_⟩
        · rw [hf]
          simpa using hglen
        · intro gp hgp c hc
          rcases List.mem_cons.mp hgp with rfl | hgp
          · exact hd c hc
          · rcases List.mem_cons.mp hgp with rfl | hgp
            · rcases List.mem_append.mp hc with hc | hc
              · rcases hsep with ⟨rfl, -⟩ | ⟨x, rfl, hx⟩
                · simp at hc
                · simp only [List.mem_singleton] at hc
                  rw [hc]; exact hx
              · exact hgdel g0 (List.mem_cons_self _ _) c hc
            · exact hgdel gp (List.mem_cons_of_mem _ hgp) c hc
        · intro i h0 h1
          rw [hf] at h1
          simp only [List.length_cons] at h1
          obtain ⟨j, rfl⟩ : ∃ j, i = j + 1 := ⟨i - 1, by omega⟩
          simp only [List.get?_cons_succ]
          cases j with
          | zero =>
            simp only [List.get?_cons_zero, ne_eq, Option.some.injEq, List.append_eq_nil]
            rintro ⟨hsep0, -⟩
            rcases hsep with ⟨-, hr⟩ | ⟨x, rfl, -⟩
            · rw [hr] at h1
              simp [nonEmptyFields] at h1
            · simp at hsep0
          | succ j =>
            simp only [List.get?_cons_succ]
            have := hginner (j + 1) (by omega) (by omega)
            simpa using this
        · rw [hf]
          show d ++ t.token ++ weave ((sep ++ g0) :: gs) (nonEmptyFields t.rest) = s
          rw [weave_prepend, hweave, hsplit]
          simp [List.append_assoc]

/-- Claim C2: on globals holding any history, `lsh_split_line` returns, in
order, exactly the fields of the line, that is its maximal non-empty runs of
bytes that are none of space, tab, carriage return, newline, bell.  No token is
empty or holds a delimiter; the runs are maximal: the line is the tokens woven
with runs of delimiters, one run before the first token and one after the last,
possibly empty, and a non-empty one between two consecutive tokens.  The number
of tokens is the number of non-empty delimited substrings, and an empty or
delimiter-only line yields no token. -/
theorem lsh_split_line_tokens (g : Globals) (es : List (List Nat)) (line : List Nat)
    (hg : g.Holds es) :
    ∃ r, lsh_split_line g line = some r ∧ r.tokens = nonEmptyFields line ∧
      (∀ t ∈ r.tokens, t ≠ [] ∧ ∀ c ∈ t, c ∉ LSH_TOK_DELIM) ∧
      (∃ gaps : List (List Nat), gaps.length = r.tokens.length + 1 ∧
        (∀ gp ∈ gaps, ∀ c ∈ gp, c ∈ LSH_TOK_DELIM) ∧
        (∀ i : Nat, 0 < i → i < r.tokens.length → gaps.get? i ≠ some []) ∧
        weave gaps r.tokens = line) ∧
      r.tokens.length = (nonEmptyFields line).length ∧
      ((∀ c ∈ line, c ∈ LSH_TOK_DELIM) → r.tokens = []) := by
  obtain ⟨r, hr, htoks, -, -, -⟩ := lsh_split_line_spec g es line hg
  obtain ⟨gaps, h1, h2, h3, h4⟩ := nonEmptyFields_weave (line.length + 1) line (by omega)
  refine ⟨r, hr, htoks, ?_, ⟨gaps, by rw [htoks]; exact h1,
    fun gp hgp c hc => by simpa [isDelim] using h2 gp hgp c hc, by rw [htoks]; exact h3,
    by rw [htoks]; exact h4⟩, by rw [htoks], ?_⟩
  · intro t ht
    rw [htoks] at ht
    obtain ⟨hne, hnd⟩ := nonEmptyFields_mem (line.length + 1) line (by omega) t ht
    refine ⟨hne, fun c hc hd => ?_⟩
    have := hnd c hc
    simp [isDelim, hd] at this
  · intro hall
    rw [htoks]
    exact nonEmptyFields_all_delim line (fun c hc => by simpa [isDelim] using hall c hc)

/-- Witness for C2: the line `  say  hello   world ` typed at a fresh shell
yields the tokens `say`, `hello`, `world`. -/
theorem lsh_split_line_tokens_witness :
    (∃ r, lsh_split_line Globals.init (bytes "  say  hello   world ") = some r ∧
      r.tokens = nonEmptyFields (bytes "  say  hello   world ") ∧
      (∀ t ∈ r.tokens, t ≠ [] ∧ ∀ c ∈ t, c ∉ LSH_TOK_DELIM) ∧
      (∃ gaps : List (List Nat), gaps.length = r.tokens.length + 1 ∧
        (∀ gp ∈ gaps, ∀ c ∈ gp, c ∈ LSH_TOK_DELIM) ∧
        (∀ i : Nat, 0 < i → i < r.tokens.length → gaps.get? i ≠ some []) ∧
        weave gaps r.tokens = bytes "  say  hello   world ") ∧
      r.tokens.length = (nonEmptyFields (bytes "  say  hello   world ")).length ∧
      ((∀ c ∈ bytes "  say  hello   world ", c ∈ LSH_TOK_DELIM) → r.tokens = [])) ∧
    nonEmptyFields (bytes "  say  hello   world ") = [bytes "say", bytes "hello", bytes "world"] :=
  ⟨lsh_split_line_tokens Globals.init [] (bytes "  say  hello   world ")
    ⟨rfl, rfl, by decide⟩, by decide⟩

/-! ## Theorems about the history store -/

/-- Passing lines through `lsh_split_line` one after the other archives, in
order, exactly those that hold a token. -/
theorem submitLines_holds_filter :
    ∀ (lines : List (List Nat)) (g : Globals) (es : List (List Nat)), g.Holds es →
      ∃ g1, submitLines g lines = some g1 ∧
        g1.Holds (es ++ lines.filter (fun l => decide (nonEmptyFields l ≠ []))) := by
  intro lines
  induction lines with
  | nil => intro g es hg; exact ⟨g, rfl, by simpa using hg⟩
  | cons l more ih =>
    intro g es hg
    obtain ⟨r, hr, -, -, hnil, hcons⟩ := lsh_split_line_spec g es l hg
    unfold submitLines
    simp only [hr]
    by_cases hf : nonEmptyFields l = []
    · rw [hnil hf]
      obtain ⟨g1, h1, h2⟩ := ih g es hg
      refine ⟨g1, h1, ?_⟩
      rw [List.filter_cons_of_neg (by simpa using hf)]
      exact h2
    · obtain ⟨g1, h1, h2⟩ := ih r.globals (es ++ [l]) (hcons hf).1
      refine ⟨g1, h1, ?_⟩
      rw [List.filter_cons_of_pos (by simpa using hf)]
      simpa using h2

/-- Counterexample to C3 as stated: the line made of one space is non-empty,
yet after it has been submitted to a fresh shell the history store holds no
entry instead of one. -/
theorem submitLines_blank_line_not_archived :
    ([32] : List Nat) ≠ [] ∧ submitLines Globals.init [[32]] = some Globals.init ∧
      Globals.init.historyPos = 0 ∧ ¬ Globals.init.Holds [[32]] := by
  refine ⟨by decide, by decide, rfl, ?_⟩
  rintro ⟨h, -⟩
  simp [Globals.init] at h

/-- Claim C3, amended: starting from the empty history, after any N lines that
each hold at least one token (a byte that is no delimiter) have been passed
through `lsh_split_line`, the history store holds exactly those N lines, in
submission order, each equal to the line as typed. -/
theorem submitLines_holds (lines : List (List Nat))
    (h : ∀ l ∈ lines, ∃ c ∈ l, c ∉ LSH_TOK_DELIM) :
    ∃ g, submitLines Globals.init lines = some g ∧ g.Holds lines ∧
      g.historyPos = lines.length ∧ g.stored = lines.map Slot.ptr := by
  obtain ⟨g, hg, hh⟩ :=
    submitLines_holds_filter lines Globals.init [] ⟨rfl, rfl, by decide⟩
  have hall : lines.filter (fun l => decide (nonEmptyFields l ≠ [])) = lines := by
    rw [List.filter_eq_self]
    intro l hl
    simpa using (nonEmptyFields_ne_nil_iff l).mpr (h l hl)
  rw [List.nil_append, hall] at hh
  exact ⟨g, hg, hh, hh.1, Holds.stored_eq hh⟩

/-- Witness for C3: the lines `ls -l`, `  say  hello   world ` and `exit`. -/
theorem submitLines_holds_witness :
    ∃ g, submitLines Globals.init
        [bytes "ls -l", bytes "  say  hello   world ", bytes "exit"] = some g ∧
      g.Holds [bytes "ls -l", bytes "  say  hello   world ", bytes "exit"] ∧
      g.historyPos = [bytes "ls -l", bytes "  say  hello   world ", bytes "exit"].length ∧
      g.stored =
        [bytes "ls -l", bytes "  say  hello   world ", bytes "exit"].map Slot.ptr :=
  submitLines_holds [bytes "ls -l", bytes "  say  hello   world ", bytes "exit"] (by decide)

/-- Claim C4: for globals holding any history `es` and every line, a call of
`lsh_split_line` leaves each stored entry at its index with its text, and when
the line yields a token the globals afterwards hold `es` followed by exactly
one new entry, the line byte for byte as it was passed in; when it yields none
the globals are unchanged.  The working buffer, whose delimiters `strtok`
overwrites, is a different object from the archived copy. -/
theorem lsh_split_line_history (g : Globals) (es : List (List Nat)) (line : List Nat)
    (hg : g.Holds es) :
    ∃ r, lsh_split_line g line = some r ∧
      (∀ i : Nat, i < es.length →
        r.globals.entry (i : Int) = g.entry (i : Int) ∧ g.entry (i : Int) = es.get? i) ∧
      (r.tokens ≠ [] →
        r.globals.Holds (es ++ [line]) ∧ r.globals.historyPos = g.historyPos + 1 ∧
          r.globals.entry (es.length : Int) = some line) ∧
      (r.tokens = [] → r.globals = g) := by
  obtain ⟨r, hr, htoks, -, hnil, hcons⟩ := lsh_split_line_spec g es line hg
  refine ⟨r, hr, ?_, ?_, ?_⟩
  · intro i hi
    refine ⟨?_, Holds.entry_eq hg i hi⟩
    rw [Holds.entry_eq hg i hi]
    by_cases hf : nonEmptyFields line = []
    · rw [hnil hf]; exact Holds.entry_eq hg i hi
    · rw [Holds.entry_eq (hcons hf).1 i (by simp; omega)]
      simp [List.getElem?_append_left hi]
  · intro ht
    rw [htoks] at ht
    have hh := (hcons ht).1
    refine ⟨hh, ?_, ?_⟩
    · rw [hh.1, hg.1]; simp
    · rw [Holds.entry_eq hh es.length (by simp)]
      simp
  · intro ht
    rw [htoks] at ht
    exact hnil ht

/-- Witness for C4: with `ls` already archived, the line
`  say  hello   world ` is appended untouched, while the working buffer ends
with a NUL in place of the delimiter after each token. -/
theorem lsh_split_line_history_witness :
    (∃ r, lsh_split_line
        ⟨some (Slot.ptr (bytes "ls") :: Slot.null :: List.replicate 62 Slot.uninit), 1, 64⟩
        (bytes "  say  hello   world ") = some r ∧
      (∀ i : Nat, i < [bytes "ls"].length →
        r.globals.entry (i : Int) =
          Globals.entry
            ⟨some (Slot.ptr (bytes "ls") :: Slot.null :: List.replicate 62 Slot.uninit), 1, 64⟩
            (i : Int) ∧
        Globals.entry
            ⟨some (Slot.ptr (bytes "ls") :: Slot.null :: List.replicate 62 Slot.uninit), 1, 64⟩
            (i : Int) = [bytes "ls"].get? i) ∧
      (r.tokens ≠ [] →
        r.globals.Holds ([bytes "ls"] ++ [bytes "  say  hello   world "]) ∧
          r.globals.historyPos = 1 + 1 ∧
          r.globals.entry (([bytes "ls"].length : Nat) : Int) =
            some (bytes "  say  hello   world ")) ∧
      (r.tokens = [] →
        r.globals =
          ⟨some (Slot.ptr (bytes "ls") :: Slot.null :: List.replicate 62 Slot.uninit), 1, 64⟩)) ∧
    (lsh_split_line
        ⟨some (Slot.ptr (bytes "ls") :: Slot.null :: List.replicate 62 Slot.uninit), 1, 64⟩
        (bytes "  say  hello   world ")).map (fun r => (r.tokens, r.line)) =
      some ([bytes "say", bytes "hello", bytes "world"],
        bytes "  say" ++ [0] ++ bytes " hello" ++ [0] ++ bytes "  world" ++ [0]) :=
  ⟨lsh_split_line_history
    ⟨some (Slot.ptr (bytes "ls") :: Slot.null :: List.replicate 62 Slot.uninit), 1, 64⟩
    [bytes "ls"] (bytes "  say  hello   world ")
    ⟨rfl, by decide, by decide, List.replicate 62 Slot.uninit, rfl⟩, by decide⟩

/-! ## Theorems about history navigation -/

/-- Running on after an input that ended at the head of the loop. -/
theorem read_loop_append (g : Globals) :
    ∀ (n : Nat) (pre : List Nat) (e e0 : Editor) (rest : List Nat), pre.length ≤ n →
      lsh_read_line_loop g e pre = ReadOutcome.starved e0 [] →
      lsh_read_line_loop g e (pre ++ rest) = lsh_read_line_loop g e0 rest := by
  intro n
  induction n with
  | zero =>
    intro pre e e0 rest hlen h
    have : pre = [] := List.length_eq_zero.mp (by omega)
    subst this
    simp only [lsh_read_line_loop, ReadOutcome.starved.injEq, and_true] at h
    subst h
    rfl
  | succ n ih =>
    intro pre e e0 rest hlen h
    rcases pre with _ | ⟨c, p⟩
    · simp only [lsh_read_line_loop, ReadOutcome.starved.injEq, and_true] at h
      subst h
      rfl
    · simp only [List.length_cons] at hlen
      by_cases h27 : c = 27
      · subst h27
        rcases p with _ | ⟨c1, _ | ⟨c2, p2⟩⟩
        · simp [lsh_read_line_loop] at h
        · simp [lsh_read_line_loop] at h
        · rw [read_loop_esc] at h
          rw [List.cons_append, List.cons_append, List.cons_append, read_loop_esc]
          cases hesc : e.escape g c1 c2 with
          | none => rw [hesc] at h; simp at h
          | some e1 =>
            rw [hesc] at h
            simp only at h ⊢
            exact ih p2 e1 e0 rest (by simp only [List.length_cons] at hlen; omega) h
      · rw [read_loop_cons g e c p h27] at h
        rw [List.cons_append, read_loop_cons g e c _ h27]
        by_cases h10 : c = 10
        · rw [if_pos h10] at h; split at h <;> simp at h
        · rw [if_neg h10] at h ⊢
          by_cases h4 : c = 4
          · rw [if_pos h4] at h; split at h <;> simp at h
          · rw [if_neg h4] at h ⊢
            by_cases h127 : c = 127
            · rw [if_pos h127] at h ⊢
              cases hb : e.backspace with
              | none => rw [hb] at h; simp at h
              | some e1 =>
                rw [hb] at h
                simp only at h ⊢
                exact ih p e1 e0 rest (by omega) h
            · rw [if_neg h127] at h ⊢
              cases hb : e.normalChar c with
              | none => rw [hb] at h; simp at h
              | some e1 =>
                rw [hb] at h
                simp only at h ⊢
                exact ih p e1 e0 rest (by omega) h

/-- Pressing a key once more is pressing it after the earlier presses. -/
theorem presses_succ (key : List Nat) (k : Nat) :
    presses key (k + 1) = presses key k ++ key := by
  induction k with
  | zero => simp [presses]
  | succ k ih =>
    show key ++ presses key (k + 1) = (key ++ presses key k) ++ key
    rw [ih, List.append_assoc]

/-- The Up arrow when the entry it selects is `s`, at index `j`. -/
theorem arrowUp_eq {g : Globals} {es : List (List Nat)} (hg : g.Holds es) (e : Editor)
    (j : Nat) (s : List Nat) (hj : es.get? j = some s)
    (hidx : (if e.historyIndex = -1 then (g.historyPos : Int) - 1
      else if e.historyIndex > 0 then e.historyIndex - 1 else e.historyIndex) = (j : Int)) :
    e.arrowUp g =
      if s.length + 1 ≤ e.bufsize then
        some ⟨e.bufsize, s, (j : Int), e.out ++ redrawSeq ++ s⟩
      else none := by
  have hjlt : j < es.length := by
    rw [List.get?_eq_getElem?] at hj
    exact (List.getElem?_eq_some_iff.mp hj).1
  have hent : g.entry (j : Int) = some s := by rw [Holds.entry_eq hg j hjlt, hj]
  obtain ⟨bs, buf, hi, out⟩ := e
  simp only at hidx
  unfold Editor.arrowUp Editor.strcpy
  by_cases h1 : hi = -1
  · simp only [h1, if_true] at hidx ⊢
    simp only [hidx, hent]
    by_cases hf : s.length + 1 ≤ bs <;> simp [hf]
  · simp only [h1, if_false] at hidx ⊢
    by_cases h2 : hi > 0
    · simp only [h2, if_true] at hidx ⊢
      simp only [hidx, hent]
      by_cases hf : s.length + 1 ≤ bs <;> simp [hf]
    · simp only [h2, if_false] at hidx ⊢
      simp only [hidx, hent]
      by_cases hf : s.length + 1 ≤ bs <;> simp [hf]

/-- The loop on one Up key from the head of the loop, on a non-empty history. -/
theorem read_loop_upKey {g : Globals} {es : List (List Nat)} (hg : g.Holds es)
    (hne : es ≠ []) (e : Editor) :
    lsh_read_line_loop g e upKey =
      match e.arrowUp g with
      | none => ReadOutcome.undefined
      | some e1 => ReadOutcome.starved e1 [] := by
  have hpos : g.historyPos > 0 := by
    rw [hg.1]
    exact List.length_pos.mpr hne
  show lsh_read_line_loop g e (27 :: 91 :: 65 :: []) = _
  rw [read_loop_esc]
  simp only [Editor.escape, hpos, and_self, if_true]
  cases e.arrowUp g <;> simp [lsh_read_line_loop]

/-- Up presses on a history whose entries all fit in the initial capacity:
after `k` presses of a fresh call the navigation index is `N - k`, cut off at 0, and,
for `k` at least 1, the buffer is the entry at that index. -/
theorem up_presses_state (g : Globals) (es : List (List Nat)) (hg : g.Holds es)
    (hne : es ≠ []) (hfit : ∀ s ∈ es, s.length < LSH_RL_BUFSIZE) :
    ∀ k : Nat, ∃ e, lsh_read_line g (presses upKey k) = ReadOutcome.starved e [] ∧
      e.bufsize = LSH_RL_BUFSIZE ∧
      e.historyIndex = (if k = 0 then -1 else ((es.length - k : Nat) : Int)) ∧
      (1 ≤ k → es.get? (es.length - k) = some e.buffer) := by
  have hN : 0 < es.length := List.length_pos.mpr hne
  intro k
  induction k with
  | zero => exact ⟨Editor.init, rfl, rfl, rfl, fun h => absurd h (by decide)⟩
  | succ k ih =>
    obtain ⟨e, hrun, hcap, hidx, -⟩ := ih
    have hjlt : es.length - (k + 1) < es.length := by omega
    obtain ⟨s, hs⟩ : ∃ s, es.get? (es.length - (k + 1)) = some s :=
      ⟨es.get ⟨_, hjlt⟩, List.get?_eq_get hjlt⟩
    have hsfit : s.length + 1 ≤ e.bufsize := by
      have := hfit s (List.get?_mem hs)
      rw [hcap]; omega
    have hup := arrowUp_eq hg e (es.length - (k + 1)) s hs (by
      rw [hg.1]
      by_cases hk : k = 0
      · subst hk
        rw [if_pos rfl] at hidx
        rw [hidx]
        simp only [if_true]
        omega
      · rw [if_neg hk] at hidx
        have hne1 : ¬ e.historyIndex = -1 := by rw [hidx]; omega
        rw [if_neg hne1]
        by_cases hpos : e.historyIndex > 0
        · rw [if_pos hpos]; omega
        · rw [if_neg hpos]; omega)
    rw [if_pos hsfit] at hup
    refine ⟨⟨e.bufsize, s, ((es.length - (k + 1) : Nat) : Int), e.out ++ redrawSeq ++ s⟩,
      ?_, ?_, ?_, fun _ => ?_⟩
    · unfold lsh_read_line at hrun ⊢
      rw [presses_succ, read_loop_append g _ _ _ _ _ (Nat.le_refl _) hrun,
        read_loop_upKey hg hne, hup]
    · exact hcap
    · simp
    · exact hs

/-- A line of plain bytes that is at least as long as the initial capacity can
be typed and is archived, and on the next call one Up press copies it, with its
terminator, into a buffer too small for it. -/
theorem up_overflow_of_long (line : List Nat)
    (hplain : ∀ b ∈ line, b ≠ 0 ∧ b ≠ 10 ∧ b ≠ 4 ∧ b ≠ 127 ∧ b ≠ 27)
    (htok : ∃ c ∈ line, c ∉ LSH_TOK_DELIM) (hlen : LSH_RL_BUFSIZE ≤ line.length)
    (hint : line.length + LSH_RL_BUFSIZE ≤ INT_MAX) :
    ∃ e r, lsh_read_line Globals.init (line ++ [10]) = ReadOutcome.returned line e [] ∧
      lsh_split_line Globals.init line = some r ∧ r.globals.Holds [line] ∧
      lsh_read_line r.globals upKey = ReadOutcome.undefined := by
  have h1 := read_loop_plain Globals.init line Editor.init []
    (fun b hb => (hplain b hb).2) (by simp [Editor.init, LSH_RL_BUFSIZE])
    (by simpa [Editor.init] using hint)
  have hz : ∀ b ∈ line, b ≠ 0 := fun b hb => (hplain b hb).1
  obtain ⟨r, hr, -, -, -, hcons⟩ :=
    lsh_split_line_spec Globals.init [] line ⟨rfl, rfl, by decide⟩
  have hh := (hcons ((nonEmptyFields_ne_nil_iff _).mpr htok)).1
  rw [List.nil_append] at hh
  refine ⟨⟨LSH_RL_BUFSIZE * (line.length / LSH_RL_BUFSIZE + 1), line, -1, line ++ [10]⟩, r,
    ?_, hr, hh, ?_⟩
  · unfold lsh_read_line
    simpa [Editor.init, cstr_eq_self _ hz] using h1
  · unfold lsh_read_line
    rw [read_loop_upKey hh (by simp),
      arrowUp_eq hh Editor.init 0 line rfl (by rw [hh.1]; simp [Editor.init])]
    have : ¬ line.length + 1 ≤ Editor.init.bufsize := by
      simp only [Editor.init, LSH_RL_BUFSIZE] at hlen ⊢
      omega
    rw [if_neg this]

/-- The failing input of C5: the line of 1024 bytes `a` can be typed and is
archived, and on the next call one Up press copies its 1025 bytes into the
buffer of 1024: the behaviour is undefined. -/
theorem lsh_read_line_up_overflow :
    ∃ e r, lsh_read_line Globals.init (List.replicate 1024 97 ++ [10]) =
        ReadOutcome.returned (List.replicate 1024 97) e [] ∧
      lsh_split_line Globals.init (List.replicate 1024 97) = some r ∧
      r.globals.Holds [List.replicate 1024 97] ∧
      lsh_read_line r.globals upKey = ReadOutcome.undefined :=
  up_overflow_of_long (List.replicate 1024 97)
    (fun b hb => by rw [List.eq_of_mem_replicate hb]; decide)
    ⟨97, List.mem_replicate.mpr ⟨by decide, rfl⟩, by decide⟩
    (by rw [List.length_replicate]; decide)
    (by rw [List.length_replicate]; simp [LSH_RL_BUFSIZE, INT_MAX])

/-- The initial locals satisfy the bound invariant. -/
theorem Inv.init (es : List (List Nat)) : Editor.Inv es Editor.init :=
  ⟨by simp [Editor.init, LSH_RL_BUFSIZE], Or.inl rfl⟩

/-- The delete byte keeps the bound invariant. -/
theorem Inv.backspace {es : List (List Nat)} {e e1 : Editor} (h : Editor.Inv es e)
    (hb : e.backspace = some e1) : Editor.Inv es e1 := by
  obtain ⟨h1, h2⟩ := h
  unfold Editor.backspace at hb
  split_ifs at hb with ha
  · simp only [Option.some.injEq] at hb
    subst hb
    refine ⟨?_, h2⟩
    simp only [List.length_dropLast]
    omega
  · simp only [Option.some.injEq] at hb
    subst hb
    exact ⟨h1, h2⟩

/-- A normal character keeps the bound invariant. -/
theorem Inv.normalChar {es : List (List Nat)} {e e1 : Editor} (c : Nat)
    (h : Editor.Inv es e) (hb : e.normalChar c = some e1) : Editor.Inv es e1 := by
  obtain ⟨h1, h2⟩ := h
  unfold Editor.normalChar at hb
  simp only [Editor.position, List.length_append, List.length_singleton] at hb
  split_ifs at hb with ha
  · simp only [Option.some.injEq] at hb
    subst hb
    refine ⟨?_, ?_⟩
    · simp only [List.length_append, List.length_singleton, LSH_RL_BUFSIZE]
      omega
    · rcases h2 with h2 | ⟨h3, h4, h5⟩
      · exact Or.inl h2
      · refine Or.inr ⟨h3, h4, fun i s hi hs => ?_⟩
        have := h5 i s hi hs
        simp only [LSH_RL_BUFSIZE]
        omega
  · simp only [Option.some.injEq] at hb
    subst hb
    refine ⟨?_, h2⟩
    simp only [List.length_append, List.length_singleton]
    omega

/-- The Up arrow keeps the bound invariant. -/
theorem Inv.arrowUp {g : Globals} {es : List (List Nat)} (hg : g.Holds es) (hne : es ≠ [])
    {e e1 : Editor} (h : Editor.Inv es e) (hb : e.arrowUp g = some e1) :
    Editor.Inv es e1 := by
  have hN : 0 < es.length := List.length_pos.mpr hne
  obtain ⟨h1, h2⟩ := h
  have key : ∃ j : Nat, j < es.length ∧
      (if e.historyIndex = -1 then (g.historyPos : Int) - 1
        else if e.historyIndex > 0 then e.historyIndex - 1 else e.historyIndex) = (j : Int) ∧
      ∀ (i : Nat) (s : List Nat), j < i → es.get? i = some s → s.length < e.bufsize := by
    rcases h2 with h2 | ⟨h3, h4, h5⟩
    · refine ⟨es.length - 1, by omega, ?_, fun i s hi hs => ?_⟩
      · rw [if_pos h2, hg.1]; omega
      · have : i < es.length := by
          rw [List.get?_eq_getElem?] at hs
          exact (List.getElem?_eq_some_iff.mp hs).1
        omega
    · have hne1 : ¬ e.historyIndex = -1 := by omega
      by_cases hpos : e.historyIndex > 0
      · refine ⟨(e.historyIndex - 1).toNat, by omega, ?_, fun i s hi hs => ?_⟩
        · rw [if_neg hne1, if_pos hpos]; omega
        · exact h5 i s (by omega) hs
      · refine ⟨0, hN, ?_, fun i s hi hs => ?_⟩
        · rw [if_neg hne1, if_neg hpos]; omega
        · exact h5 i s (by omega) hs
  obtain ⟨j, hj, hidx, hnewer⟩ := key
  have hs : es.get? j = some (es.get ⟨j, hj⟩) := List.get?_eq_get hj
  rw [arrowUp_eq hg e j _ hs hidx] at hb
  split_ifs at hb with hfit
  simp only [Option.some.injEq] at hb
  subst hb
  refine ⟨by simp only; omega, Or.inr ⟨by simp, by simpa using hj, fun i s hi hs2 => ?_⟩⟩
  simp only at hi ⊢
  by_cases hij : i = j
  · subst hij
    rw [hs] at hs2
    simp only [Option.some.injEq] at hs2
    subst hs2
    omega
  · exact hnewer i s (by omega) hs2

/-- The Down arrow while history is browsed and a newer entry exists. -/
theorem arrowDown_step {g : Globals} {es : List (List Nat)} (hg : g.Holds es) {e : Editor}
    (h : Editor.Inv es e) (i : Nat) (hi : e.historyIndex = (i : Int)) (s : List Nat)
    (hs : es.get? (i + 1) = some s) :
    e.arrowDown g = some ⟨e.bufsize, s, ((i + 1 : Nat) : Int), e.out ++ redrawSeq ++ s⟩ := by
  have hlt : i + 1 < es.length := by
    rw [List.get?_eq_getElem?] at hs
    exact (List.getElem?_eq_some_iff.mp hs).1
  have hent : g.entry ((i + 1 : Nat) : Int) = some s := by rw [Holds.entry_eq hg _ hlt, hs]
  obtain ⟨h1, h2⟩ := h
  have hfit : s.length + 1 ≤ e.bufsize := by
    rcases h2 with h2 | ⟨-, -, h5⟩
    · omega
    · have := h5 (i + 1) s (by omega) hs
      omega
  obtain ⟨bs, buf, idx, out⟩ := e
  simp only at hi hfit
  subst hi
  unfold Editor.arrowDown Editor.strcpy
  have hne1 : ¬ ((i : Int) = -1) := by omega
  have hge : ¬ ((i : Int) + 1 ≥ (g.historyPos : Int)) := by rw [hg.1]; omega
  have hcast : (i : Int) + 1 = ((i + 1 : Nat) : Int) := by omega
  simp only [ne_eq, hne1, not_false_eq_true, if_true, hge, if_false]
  rw [hcast, hent]
  simp [hfit]

/-- The Down arrow on the newest entry leaves history browsing with an empty
buffer. -/
theorem arrowDown_last {g : Globals} {es : List (List Nat)} (hg : g.Holds es) {e : Editor}
    (h : Editor.Inv es e) (i : Nat) (hi : e.historyIndex = (i : Int))
    (hlast : i + 1 = es.length) :
    e.arrowDown g = some ⟨e.bufsize, [], -1, e.out ++ redrawSeq⟩ := by
  obtain ⟨h1, -⟩ := h
  obtain ⟨bs, buf, idx, out⟩ := e
  simp only at hi h1
  subst hi
  unfold Editor.arrowDown
  have hne1 : ¬ ((i : Int) = -1) := by omega
  have hge : (i : Int) + 1 ≥ (g.historyPos : Int) := by rw [hg.1]; omega
  have hpos : 0 < bs := by omega
  simp [hne1, hge, hpos]

/-- The Down arrow keeps the bound invariant. -/
theorem Inv.arrowDown {g : Globals} {es : List (List Nat)} (hg : g.Holds es)
    {e e1 : Editor} (h : Editor.Inv es e) (hb : e.arrowDown g = some e1) :
    Editor.Inv es e1 := by
  have h0 := h
  obtain ⟨h1, h2⟩ := h
  rcases h2 with h2 | ⟨h3, h4, h5⟩
  · unfold Editor.arrowDown at hb
    simp only [ne_eq, h2, not_true_eq_false, if_false, Option.some.injEq] at hb
    subst hb
    exact h0
  · obtain ⟨i, hi⟩ : ∃ i : Nat, e.historyIndex = (i : Int) := ⟨e.historyIndex.toNat, by omega⟩
    by_cases hlast : i + 1 = es.length
    · rw [arrowDown_last hg h0 i hi hlast] at hb
      simp only [Option.some.injEq] at hb
      subst hb
      exact ⟨by simp only [List.length_nil]; omega, Or.inl rfl⟩
    · have hlt : i + 1 < es.length := by omega
      have hs : es.get? (i + 1) = some (es.get ⟨i + 1, hlt⟩) := List.get?_eq_get hlt
      rw [arrowDown_step hg h0 i hi _ hs] at hb
      simp only [Option.some.injEq] at hb
      subst hb
      refine ⟨?_, Or.inr ⟨by simp only; omega, by simp only; omega, fun k s hk hks => ?_⟩⟩
      · have := h5 (i + 1) _ (by omega) hs
        simpa using this
      · simp only at hk ⊢
        exact h5 k s (by omega) hks

/-- The two bytes after an escape byte keep the bound invariant. -/
theorem Inv.escape {g : Globals} {es : List (List Nat)} (hg : g.Holds es)
    {e e1 : Editor} (c1 c2 : Nat) (h : Editor.Inv es e) (hb : e.escape g c1 c2 = some e1) :
    Editor.Inv es e1 := by
  unfold Editor.escape at hb
  split_ifs at hb with ha hup hdown
  · have hne : es ≠ [] := by
      intro hnil
      have := hup.2
      rw [hg.1, hnil] at this
      simp at this
    exact Inv.arrowUp hg hne h hb
  · exact Inv.arrowDown hg h hb
  · simp only [Option.some.injEq] at hb
    subst hb
    exact h
  · simp only [Option.some.injEq] at hb
    subst hb
    exact h

/-- The bound invariant holds whenever the input ends, whatever was typed. -/
theorem read_loop_inv (g : Globals) (es : List (List Nat)) (hg : g.Holds es) :
    ∀ (n : Nat) (pre : List Nat) (e e0 : Editor) (pend : List Nat), pre.length ≤ n →
      Editor.Inv es e → lsh_read_line_loop g e pre = ReadOutcome.starved e0 pend →
      Editor.Inv es e0 := by
  intro n
  induction n with
  | zero =>
    intro pre e e0 pend hlen hinv h
    have : pre = [] := List.length_eq_zero.mp (by omega)
    subst this
    simp only [lsh_read_line_loop, ReadOutcome.starved.injEq] at h
    obtain ⟨rfl, -⟩ := h
    exact hinv
  | succ n ih =>
    intro pre e e0 pend hlen hinv h
    rcases pre with _ | ⟨c, p⟩
    · simp only [lsh_read_line_loop, ReadOutcome.starved.injEq] at h
      obtain ⟨rfl, -⟩ := h
      exact hinv
    · simp only [List.length_cons] at hlen
      by_cases h27 : c = 27
      · subst h27
        rcases p with _ | ⟨c1, _ | ⟨c2, p2⟩⟩
        · simp only [lsh_read_line_loop, ReadOutcome.starved.injEq] at h
          obtain ⟨rfl, -⟩ := h
          exact hinv
        · simp only [lsh_read_line_loop, ReadOutcome.starved.injEq] at h
          obtain ⟨rfl, -⟩ := h
          exact hinv
        · rw [read_loop_esc] at h
          cases hesc : e.escape g c1 c2 with
          | none => rw [hesc] at h; simp at h
          | some e1 =>
            rw [hesc] at h
            simp only at h
            exact ih p2 e1 e0 pend (by simp only [List.length_cons] at hlen; omega)
              (Inv.escape hg c1 c2 hinv hesc) h
      · rw [read_loop_cons g e c p h27] at h
        by_cases h10 : c = 10
        · rw [if_pos h10] at h; split at h <;> simp at h
        · rw [if_neg h10] at h
          by_cases h4 : c = 4
          · rw [if_pos h4] at h; split at h <;> simp at h
          · rw [if_neg h4] at h
            by_cases h127 : c = 127
            · rw [if_pos h127] at h
              cases hb : e.backspace with
              | none => rw [hb] at h; simp at h
              | some e1 =>
                rw [hb] at h
                simp only at h
                exact ih p e1 e0 pend (by omega) (Inv.backspace hinv hb) h
            · rw [if_neg h127] at h
              cases hb : e.normalChar c with
              | none => rw [hb] at h; simp at h
              | some e1 =>
                rw [hb] at h
                simp only at h
                exact ih p e1 e0 pend (by omega) (Inv.normalChar c hinv hb) h

/-- The loop on one Down key from the head of the loop. -/
theorem read_loop_downKey (g : Globals) (e : Editor) :
    lsh_read_line_loop g e downKey =
      match e.arrowDown g with
      | none => ReadOutcome.undefined
      | some e1 => ReadOutcome.starved e1 [] := by
  show lsh_read_line_loop g e (27 :: 91 :: 66 :: []) = _
  rw [read_loop_esc]
  simp only [Editor.escape, if_true]
  have h65 : ¬ ((66 : Nat) = 65 ∧ g.historyPos > 0) := by omega
  rw [if_neg h65]
  cases e.arrowDown g <;> simp [lsh_read_line_loop]

/-- Down presses from a loop state whose navigation index is 0: after `j`
presses, `j` below the number of entries, the index is `j` and, for `j` at
least 1, the buffer is entry `j`. -/
theorem down_presses_state (g : Globals) (es : List (List Nat)) (hg : g.Holds es)
    (e0 : Editor) (hinv : Editor.Inv es e0) (h0 : e0.historyIndex = 0) :
    ∀ j : Nat, j + 1 ≤ es.length →
      ∃ e, lsh_read_line_loop g e0 (presses downKey j) = ReadOutcome.starved e [] ∧
        e.historyIndex = (j : Int) ∧ Editor.Inv es e ∧
        (1 ≤ j → es.get? j = some e.buffer) := by
  intro j
  induction j with
  | zero =>
    intro _
    exact ⟨e0, rfl, by simpa using h0, hinv, fun h => absurd h (by decide)⟩
  | succ j ih =>
    intro hj
    obtain ⟨e, hrun, hidx, hinv1, -⟩ := ih (by omega)
    have hlt : j + 1 < es.length := by omega
    have hs : es.get? (j + 1) = some (es.get ⟨j + 1, hlt⟩) := List.get?_eq_get hlt
    have hstep := arrowDown_step hg hinv1 j hidx _ hs
    refine ⟨⟨e.bufsize, es.get ⟨j + 1, hlt⟩, ((j + 1 : Nat) : Int),
      e.out ++ redrawSeq ++ es.get ⟨j + 1, hlt⟩⟩, ?_, rfl, ?_, fun _ => hs⟩
    · rw [presses_succ, read_loop_append g _ _ _ _ _ (Nat.le_refl _) hrun, read_loop_downKey,
        hstep]
    · have hloop : lsh_read_line_loop g e downKey = ReadOutcome.starved
          ⟨e.bufsize, es.get ⟨j + 1, hlt⟩, ((j + 1 : Nat) : Int),
            e.out ++ redrawSeq ++ es.get ⟨j + 1, hlt⟩⟩ [] := by
        rw [read_loop_downKey, hstep]
      exact read_loop_inv g es hg _ downKey e _ [] (Nat.le_refl _) hinv1 hloop

/-- Claim C6: on a history of N >= 1 entries, from any point of a call of
`lsh_read_line` at which the input so far has left the navigation index at the
oldest entry (0): after `j` Down presses, `1 <= j <= N-1`, the buffer is entry
`j`, the cursor its length and the index `j`; after exactly N Down presses the
buffer is empty, the cursor 0 and the index unset (-1); and a Down press at any
point where the index is unset changes neither buffer, cursor, index nor
output. -/
theorem down_presses (g : Globals) (es : List (List Nat)) (hg : g.Holds es) (hne : es ≠ [])
    (pre : List Nat) (e0 : Editor)
    (hpre : lsh_read_line g pre = ReadOutcome.starved e0 []) (h0 : e0.historyIndex = 0) :
    (∀ j : Nat, 1 ≤ j → j ≤ es.length - 1 →
      ∃ e s, lsh_read_line g (pre ++ presses downKey j) = ReadOutcome.starved e [] ∧
        es.get? j = some s ∧ e.buffer = s ∧ e.position = s.length ∧
        e.historyIndex = (j : Int)) ∧
    (∃ e, lsh_read_line g (pre ++ presses downKey es.length) = ReadOutcome.starved e [] ∧
      e.buffer = [] ∧ e.position = 0 ∧ e.historyIndex = -1) ∧
    (∀ (pre1 : List Nat) (e : Editor),
      lsh_read_line g pre1 = ReadOutcome.starved e [] → e.historyIndex = -1 →
      lsh_read_line g (pre1 ++ downKey) = ReadOutcome.starved e []) := by
  have hN : 0 < es.length := List.length_pos.mpr hne
  have hinv : Editor.Inv es e0 :=
    read_loop_inv g es hg _ pre Editor.init e0 [] (Nat.le_refl _) (Inv.init es) hpre
  have happ : ∀ rest, lsh_read_line g (pre ++ rest) = lsh_read_line_loop g e0 rest :=
    fun rest => read_loop_append g _ pre Editor.init e0 rest (Nat.le_refl _) hpre
  refine ⟨?_, ?_, ?_⟩
  · intro j hj1 hj2
    obtain ⟨e, hrun, hidx, -, hbuf⟩ := down_presses_state g es hg e0 hinv h0 j (by omega)
    exact ⟨e, e.buffer, by rw [happ, hrun], hbuf hj1, rfl, rfl, hidx⟩
  · obtain ⟨e, hrun, hidx, hinv1, -⟩ :=
      down_presses_state g es hg e0 hinv h0 (es.length - 1) (by omega)
    have hlast := arrowDown_last hg hinv1 (es.length - 1) hidx (by omega)
    refine ⟨⟨e.bufsize, [], -1, e.out ++ redrawSeq⟩, ?_, rfl, rfl, rfl⟩
    have hsplit : presses downKey es.length = presses downKey (es.length - 1) ++ downKey := by
      rw [← presses_succ]
      congr 1
      omega
    rw [happ, hsplit, read_loop_append g _ _ _ _ _ (Nat.le_refl _) hrun, read_loop_downKey,
      hlast]
  · intro pre1 e hrun hunset
    unfold lsh_read_line at hrun ⊢
    rw [read_loop_append g _ _ _ _ _ (Nat.le_refl _) hrun, read_loop_downKey]
    have : e.arrowDown g = some e := by
      unfold Editor.arrowDown
      simp [hunset]
    rw [this]

/-- Witness for C6: with the history `ls`, `pwd`, `date`, after three Up
presses the index is at the oldest entry. -/
theorem down_presses_witness :
    (∀ j : Nat, 1 ≤ j → j ≤ [bytes "ls", bytes "pwd", bytes "date"].length - 1 →
      ∃ e s, lsh_read_line
          ⟨some ([Slot.ptr (bytes "ls"), Slot.ptr (bytes "pwd"), Slot.ptr (bytes "date"),
            Slot.null] ++ List.replicate 60 Slot.uninit), 3, 64⟩
          (presses upKey 3 ++ presses downKey j) = ReadOutcome.starved e [] ∧
        [bytes "ls", bytes "pwd", bytes "date"].get? j = some s ∧ e.buffer = s ∧
        e.position = s.length ∧ e.historyIndex = (j : Int)) ∧
    (∃ e, lsh_read_line
        ⟨some ([Slot.ptr (bytes "ls"), Slot.ptr (bytes "pwd"), Slot.ptr (bytes "date"),
          Slot.null] ++ List.replicate 60 Slot.uninit), 3, 64⟩
        (presses upKey 3 ++ presses downKey [bytes "ls", bytes "pwd", bytes "date"].length) =
          ReadOutcome.starved e [] ∧
      e.buffer = [] ∧ e.position = 0 ∧ e.historyIndex = -1) ∧
    (∀ (pre1 : List Nat) (e : Editor),
      lsh_read_line
        ⟨some ([Slot.ptr (bytes "ls"), Slot.ptr (bytes "pwd"), Slot.ptr (bytes "date"),
          Slot.null] ++ List.replicate 60 Slot.uninit), 3, 64⟩ pre1 =
          ReadOutcome.starved e [] →
      e.historyIndex = -1 →
      lsh_read_line
        ⟨some ([Slot.ptr (bytes "ls"), Slot.ptr (bytes "pwd"), Slot.ptr (bytes "date"),
          Slot.null] ++ List.replicate 60 Slot.uninit), 3, 64⟩ (pre1 ++ downKey) =
          ReadOutcome.starved e []) :=
  down_presses
    ⟨some ([Slot.ptr (bytes "ls"), Slot.ptr (bytes "pwd"), Slot.ptr (bytes "date"),
      Slot.null] ++ List.replicate 60 Slot.uninit), 3, 64⟩
    [bytes "ls", bytes "pwd", bytes "date"]
    ⟨rfl, by decide, by decide, List.replicate 60 Slot.uninit, rfl⟩ (by decide)
    (presses upKey 3)
    ⟨1024, bytes "ls", 0,
      redrawSeq ++ bytes "date" ++ (redrawSeq ++ bytes "pwd") ++ (redrawSeq ++ bytes "ls")⟩
    (by simp [lsh_read_line, presses, upKey, lsh_read_line_loop, Editor.escape, Editor.arrowUp,
      Editor.init, Globals.entry, Editor.strcpy, LSH_RL_BUFSIZE, bytes, redrawSeq])
    rfl

/-- On a history whose entries all fit in the initial capacity, the behaviour
C5 describes: after `k >= 1` Up presses of a fresh call the buffer is entry
`N - k` (entry 0 once `k` exceeds `N`) and the cursor is its length. -/
theorem up_presses_fit (g : Globals) (es : List (List Nat)) (hg : g.Holds es) (hne : es ≠ [])
    (hfit : ∀ s ∈ es, s.length < LSH_RL_BUFSIZE) (k : Nat) (hk : 1 ≤ k) :
    ∃ e s, lsh_read_line g (presses upKey k) = ReadOutcome.starved e [] ∧
      es.get? (es.length - k) = some s ∧ e.buffer = s ∧ e.position = s.length ∧
      e.historyIndex = ((es.length - k : Nat) : Int) := by
  obtain ⟨e, hrun, -, hidx, hbuf⟩ := up_presses_state g es hg hne hfit k
  have hk0 : ¬ k = 0 := by omega
  rw [if_neg hk0] at hidx
  exact ⟨e, e.buffer, hrun, hbuf hk, rfl, rfl, hidx⟩

/-- Witness for `up_presses_fit`: five Up presses on the history `ls`, `pwd`,
`date` end on the oldest entry. -/
theorem up_presses_fit_witness :
    ∃ e s, lsh_read_line
        ⟨some ([Slot.ptr (bytes "ls"), Slot.ptr (bytes "pwd"), Slot.ptr (bytes "date"),
          Slot.null] ++ List.replicate 60 Slot.uninit), 3, 64⟩
        (presses upKey 5) = ReadOutcome.starved e [] ∧
      [bytes "ls", bytes "pwd", bytes "date"].get?
        ([bytes "ls", bytes "pwd", bytes "date"].length - 5) = some s ∧
      e.buffer = s ∧ e.position = s.length ∧
      e.historyIndex = (([bytes "ls", bytes "pwd", bytes "date"].length - 5 : Nat) : Int) :=
  up_presses_fit
    ⟨some ([Slot.ptr (bytes "ls"), Slot.ptr (bytes "pwd"), Slot.ptr (bytes "date"),
      Slot.null] ++ List.replicate 60 Slot.uninit), 3, 64⟩
    [bytes "ls", bytes "pwd", bytes "date"]
    ⟨rfl, by decide, by decide, List.replicate 60 Slot.uninit, rfl⟩ (by decide) (by decide) 5
    (by decide)

/-! ## Theorems about the builtins and the dispatcher -/

/-- The scan of `lsh_history` over an array that holds the entries `es`: it
prints all of them but the last. -/
theorem lsh_history_scan_holds :
    ∀ (es : List (List Nat)) (tl : List Slot), es ≠ [] →
      lsh_history_scan (es.map Slot.ptr ++ Slot.null :: tl) =
        some (es.dropLast.map (fun s => Effect.stdout (s ++ [10]))) := by
  intro es
  induction es with
  | nil => intro tl h; exact absurd rfl h
  | cons a more ih =>
    intro tl _
    cases more with
    | nil => simp [lsh_history_scan]
    | cons b rest =>
      have h := ih tl (by simp)
      simp only [List.map_cons, List.cons_append] at h ⊢
      rw [lsh_history_scan]
      simp only [h, List.dropLast_cons₂, List.map_cons, List.head?_cons, lsh_history_print]

/-- Counterexample to C7 as stated: with the two entries `ls` and `history`
stored, `lsh_history` prints the line `ls` only; the newest entry is left
out. -/
theorem lsh_history_omits_newest :
    Globals.Holds
        ⟨some ([Slot.ptr (bytes "ls"), Slot.ptr (bytes "history"), Slot.null] ++
          List.replicate 61 Slot.uninit), 2, 64⟩
        [bytes "ls", bytes "history"] ∧
      lsh_history
        ⟨some ([Slot.ptr (bytes "ls"), Slot.ptr (bytes "history"), Slot.null] ++
          List.replicate 61 Slot.uninit), 2, 64⟩ =
        ⟨Ret.value 1, [Effect.stdout (bytes "ls\n")]⟩ ∧
      stdoutOf [Effect.stdout (bytes "ls\n")] ≠ bytes "ls\nhistory\n" :=
  ⟨⟨rfl, by decide, by decide, List.replicate 61 Slot.uninit, rfl⟩, by decide, by decide⟩

/-- On globals holding a non-empty history, `lsh_history` prints every entry
but the newest, one per line, and returns 1. -/
theorem lsh_history_call (g : Globals) (es : List (List Nat)) (hg : g.Holds es)
    (hne : es ≠ []) :
    lsh_history g = ⟨Ret.value 1, es.dropLast.map (fun s => Effect.stdout (s ++ [10]))⟩ := by
  obtain ⟨-, h⟩ := hg
  unfold lsh_history
  cases hh : g.history with
  | none =>
    rw [hh] at h
    exact absurd h.1 hne
  | some arr =>
    rw [hh] at h
    obtain ⟨-, -, tl, rfl⟩ := h
    simp only [lsh_history_scan_holds es tl hne]

/-- Claim C7, amended: for every history store holding n >= 1 entries,
`lsh_history` prints the n-1 entries that precede the newest one, oldest to
newest, each followed by a newline, prints nothing else, and returns 1. -/
theorem lsh_history_prints (g : Globals) (es : List (List Nat)) (hg : g.Holds es)
    (hne : es ≠ []) :
    lsh_history g = ⟨Ret.value 1, es.dropLast.map (fun s => Effect.stdout (s ++ [10]))⟩ ∧
      stdoutOf (lsh_history g).effects = (es.dropLast.map (fun s => s ++ [10])).flatten := by
  refine ⟨lsh_history_call g es hg hne, ?_⟩
  rw [lsh_history_call g es hg hne]
  simp only
  generalize es.dropLast = l
  induction l with
  | nil => rfl
  | cons a l ih => simp [stdoutOf, ih]

/-- Witness for C7: with `ls`, `pwd` and `history` stored, the lines `ls` and
`pwd` are printed. -/
theorem lsh_history_prints_witness :
    lsh_history
        ⟨some ([Slot.ptr (bytes "ls"), Slot.ptr (bytes "pwd"), Slot.ptr (bytes "history"),
          Slot.null] ++ List.replicate 60 Slot.uninit), 3, 64⟩ =
      ⟨Ret.value 1,
        [bytes "ls", bytes "pwd", bytes "history"].dropLast.map
          (fun s => Effect.stdout (s ++ [10]))⟩ ∧
    stdoutOf (lsh_history
        ⟨some ([Slot.ptr (bytes "ls"), Slot.ptr (bytes "pwd"), Slot.ptr (bytes "history"),
          Slot.null] ++ List.replicate 60 Slot.uninit), 3, 64⟩).effects =
      ([bytes "ls", bytes "pwd", bytes "history"].dropLast.map (fun s => s ++ [10])).flatten :=
  lsh_history_prints
    ⟨some ([Slot.ptr (bytes "ls"), Slot.ptr (bytes "pwd"), Slot.ptr (bytes "history"),
      Slot.null] ++ List.replicate 60 Slot.uninit), 3, 64⟩
    [bytes "ls", bytes "pwd", bytes "history"]
    ⟨rfl, by decide, by decide, List.replicate 60 Slot.uninit, rfl⟩ (by decide)

/-- The join loop of `lsh_say` builds the words separated by single spaces. -/
theorem lsh_say_join_eq :
    ∀ (more : List (List Nat)) (first : List Nat),
      lsh_say_join first more = List.intercalate [32] (first :: more) := by
  intro more
  induction more with
  | nil => intro first; simp [lsh_say_join, List.intercalate]
  | cons w more ih =>
    intro first
    have h := ih (first ++ [32] ++ w)
    unfold lsh_say_join at h ⊢
    rw [List.foldl_cons, h]
    cases more <;> simp [List.intercalate, List.intersperse]

/-- The length of the string `lsh_say` builds. -/
theorem lsh_say_join_length :
    ∀ (more : List (List Nat)) (first : List Nat),
      (lsh_say_join first more).length =
        first.length + (more.map List.length).sum + more.length := by
  intro more
  induction more with
  | nil => intro first; simp [lsh_say_join]
  | cons w more ih =>
    intro first
    have h := ih (first ++ [32] ++ w)
    unfold lsh_say_join at h ⊢
    rw [List.foldl_cons, h]
    simp only [List.length_append, List.length_singleton, List.map_cons, List.sum_cons,
      List.length_cons, List.length_nil]
    omega

/-- The function `lsh_num_args` counts the cells of the argument list. -/
theorem lsh_num_args_eq (args : List (List Nat)) : lsh_num_args args = args.length := by
  induction args with
  | nil => rfl
  | cons a more ih => simp [lsh_num_args, ih]

/-- The allocation of `lsh_say` is exactly the joined string and its
terminator. -/
theorem lsh_say_size_eq (a0 first : List Nat) (more : List (List Nat)) :
    lsh_say_size (a0 :: first :: more) =
      (((lsh_say_join first more).length + 1 : Nat) : Int) := by
  unfold lsh_say_size
  rw [lsh_num_args_eq, lsh_say_join_length]
  simp only [List.length_cons, List.drop_succ_cons, List.drop_zero, List.map_cons,
    List.sum_cons]
  push_cast
  omega

/-- With a word to say, `lsh_say` writes the words joined by single spaces,
then a newline, and returns 1. -/
theorem lsh_say_call (a0 first : List Nat) (more : List (List Nat)) :
    lsh_say (a0 :: first :: more) =
      ⟨Ret.value 1,
        [Effect.stdout (List.intercalate [32] (first :: more)), Effect.stdout [10]]⟩ := by
  unfold lsh_say
  have hfit : (((lsh_say_join first more).length + 1 : Nat) : Int) ≤
      lsh_say_size (a0 :: first :: more) := by
    rw [lsh_say_size_eq]
  simp only [List.get?_cons_succ, List.get?_cons_zero, List.drop_succ_cons, List.drop_zero]
  rw [if_pos hfit, lsh_say_join_eq]

/-- Claim C8: for every argument sequence `say w1 .. wk`, `k >= 1`, `lsh_say`
writes to standard output exactly the words `w1 .. wk` joined by single
spaces, followed by one newline, and returns 1. -/
theorem lsh_say_output (w1 : List Nat) (ws : List (List Nat)) :
    (lsh_say (bytes "say" :: w1 :: ws)).ret = Ret.value 1 ∧
      stdoutOf (lsh_say (bytes "say" :: w1 :: ws)).effects =
        List.intercalate [32] (w1 :: ws) ++ [10] := by
  rw [lsh_say_call]
  simp [stdoutOf]

/-- The example of C8: `say one two three` writes `one two three` and a
newline. -/
theorem lsh_say_output_witness :
    (lsh_say [bytes "say", bytes "one", bytes "two", bytes "three"]).ret = Ret.value 1 ∧
      stdoutOf (lsh_say [bytes "say", bytes "one", bytes "two", bytes "three"]).effects =
        bytes "one two three\n" := by
  have h := lsh_say_output (bytes "one") [bytes "two", bytes "three"]
  refine ⟨h.1, ?_⟩
  rw [h.2]
  decide

/-- The function `strcmp` returns 0 exactly on equal strings. -/
theorem strcmp_eq_zero_iff : ∀ (a b : List Nat), strcmp a b = 0 ↔ a = b := by
  intro a
  induction a with
  | nil =>
    intro b
    cases b <;> simp [strcmp]
  | cons x s ih =>
    intro b
    cases b with
    | nil => simp [strcmp]
    | cons y t =>
      unfold strcmp
      by_cases hxy : x = y
      · simp [hxy, ih t]
      · rw [if_neg hxy]
        by_cases hlt : x < y <;> simp [hlt, hxy]

/-- The dispatch of `lsh_execute` over a table of five handlers, as a chain of
comparisons of the first token with the five names in table order. -/
theorem lsh_execute_with_cons (f0 f1 f2 f3 f4 launch : List (List Nat) → Call)
    (a0 : List Nat) (rest : List (List Nat)) :
    lsh_execute_with [f0, f1, f2, f3, f4] launch (a0 :: rest) =
      if a0 = bytes "cd" then f0 (a0 :: rest)
      else if a0 = bytes "help" then f1 (a0 :: rest)
      else if a0 = bytes "exit" then f2 (a0 :: rest)
      else if a0 = bytes "say" then f3 (a0 :: rest)
      else if a0 = bytes "history" then f4 (a0 :: rest)
      else launch (a0 :: rest) := by
  simp only [lsh_execute_with, builtin_str, List.zip_cons_cons, List.zip_nil_right,
    lsh_execute_scan, strcmp_eq_zero_iff]

/-- Claim C9: for every non-empty token sequence and whatever the five
handlers and the launcher are, `lsh_execute` returns the result of exactly one
of them applied to the full token sequence: the handler of table row `i` when
the first token equals `builtin_str[i]` byte for byte, and the launcher when it
equals none of the five names.  The launcher is the one chosen, for all
handlers, if and only if the first token is none of the names; `CD`, `exit `
and `cdx` are none of them.  The program's own `lsh_execute` is this dispatch
over `builtin_func` and `lsh_launch`. -/
theorem lsh_execute_dispatch (a0 : List Nat) (rest : List (List Nat)) :
    (∀ (f0 f1 f2 f3 f4 launch : List (List Nat) → Call) (i : Nat) (name : List Nat)
        (f : List (List Nat) → Call),
      builtin_str.get? i = some name → [f0, f1, f2, f3, f4].get? i = some f → a0 = name →
        lsh_execute_with [f0, f1, f2, f3, f4] launch (a0 :: rest) = f (a0 :: rest)) ∧
    (∀ (f0 f1 f2 f3 f4 launch : List (List Nat) → Call), a0 ∉ builtin_str →
      lsh_execute_with [f0, f1, f2, f3, f4] launch (a0 :: rest) = launch (a0 :: rest)) ∧
    ((∀ (f0 f1 f2 f3 f4 launch : List (List Nat) → Call),
        lsh_execute_with [f0, f1, f2, f3, f4] launch (a0 :: rest) = launch (a0 :: rest)) ↔
      a0 ∉ builtin_str) ∧
    (∀ (os : Os) (g : Globals),
      lsh_execute os g (a0 :: rest) =
        lsh_execute_with [lsh_cd os, lsh_help, lsh_exit, lsh_say, fun _ => lsh_history g]
          (lsh_launch os) (a0 :: rest)) ∧
    bytes "CD" ∉ builtin_str ∧ bytes "exit " ∉ builtin_str ∧ bytes "cdx" ∉ builtin_str := by
  have hlaunch : ∀ (f0 f1 f2 f3 f4 launch : List (List Nat) → Call), a0 ∉ builtin_str →
      lsh_execute_with [f0, f1, f2, f3, f4] launch (a0 :: rest) = launch (a0 :: rest) := by
    intro f0 f1 f2 f3 f4 launch hno
    simp only [builtin_str, List.mem_cons, List.mem_singleton, not_or, List.not_mem_nil,
      or_false] at hno
    obtain ⟨h0, h1, h2, h3, h4⟩ := hno
    rw [lsh_execute_with_cons, if_neg h0, if_neg h1, if_neg h2, if_neg h3, if_neg h4]
  refine ⟨?_, hlaunch, ⟨?_, fun hno f0 f1 f2 f3 f4 launch => hlaunch f0 f1 f2 f3 f4 launch hno⟩,
    fun os g => rfl, by decide, by decide, by decide⟩
  · intro f0 f1 f2 f3 f4 launch i name f hname hf ha
    subst ha
    rw [lsh_execute_with_cons]
    rcases i with _ | _ | _ | _ | _ | i
    · simp only [builtin_str, List.get?_cons_zero, Option.some.injEq] at hname hf
      subst hname; subst hf
      rfl
    · simp only [builtin_str, List.get?_cons_succ, List.get?_cons_zero,
        Option.some.injEq] at hname hf
      subst hname; subst hf
      rfl
    · simp only [builtin_str, List.get?_cons_succ, List.get?_cons_zero,
        Option.some.injEq] at hname hf
      subst hname; subst hf
      rfl
    · simp only [builtin_str, List.get?_cons_succ, List.get?_cons_zero,
        Option.some.injEq] at hname hf
      subst hname; subst hf
      rfl
    · simp only [builtin_str, List.get?_cons_succ, List.get?_cons_zero,
        Option.some.injEq] at hname hf
      subst hname; subst hf
      rfl
    · simp [builtin_str] at hname
  · intro hall hmem
    have h := hall (fun _ => ⟨Ret.value 0, []⟩) (fun _ => ⟨Ret.value 0, []⟩)
      (fun _ => ⟨Ret.value 0, []⟩) (fun _ => ⟨Ret.value 0, []⟩) (fun _ => ⟨Ret.value 0, []⟩)
      (fun _ => ⟨Ret.value 1, []⟩)
    rw [lsh_execute_with_cons] at h
    simp only [builtin_str, List.mem_cons, List.mem_singleton, List.not_mem_nil,
      or_false] at hmem
    rcases hmem with h0 | h1 | h2 | h3 | h4
    · rw [if_pos h0] at h; simp at h
    · split_ifs at h <;> simp at h
    · split_ifs at h <;> simp at h
    · split_ifs at h <;> simp at h
    · split_ifs at h <;> simp at h

/-- Once some status reports an exit or a signal, the wait loop returns 1. -/
theorem lsh_launch_wait_ret (pid : Int) :
    ∀ statuses : List WaitStatus,
      (∃ s ∈ statuses, WIFEXITED s = true ∨ WIFSIGNALED s = true) →
      (lsh_launch_wait pid statuses).ret = Ret.value 1 := by
  intro statuses
  induction statuses with
  | nil => rintro ⟨s, hs, -⟩; simp at hs
  | cons st more ih =>
    rintro ⟨s, hs, hterm⟩
    unfold lsh_launch_wait
    by_cases hst : (!WIFEXITED st && !WIFSIGNALED st) = true
    · rw [if_pos hst]
      simp only
      apply ih
      rcases List.mem_cons.mp hs with rfl | hmem
      · simp only [Bool.and_eq_true, Bool.not_eq_true'] at hst
        rcases hterm with h | h
        · rw [hst.1] at h; simp at h
        · rw [hst.2] at h; simp at h
      · exact ⟨s, hmem, hterm⟩
    · rw [if_neg hst]

/-- In the shell process, a launched command whose child ends makes
`lsh_launch` return 1; so does a failed `fork`. -/
theorem lsh_launch_ret (os : Os) (args : List (List Nat)) (hshell : os.forkResult ≠ 0)
    (hterm : os.forkResult > 0 →
      ∃ s ∈ os.waitStatuses, WIFEXITED s = true ∨ WIFSIGNALED s = true) :
    (lsh_launch os args).ret = Ret.value 1 := by
  unfold lsh_launch
  rw [if_neg hshell]
  by_cases hneg : os.forkResult < 0
  · rw [if_pos hneg]
  · rw [if_neg hneg]
    exact lsh_launch_wait_ret _ _ (hterm (by omega))

/-- The builtin `lsh_say` returns 1 on every argument sequence that starts
with a command name. -/
theorem lsh_say_ret (a0 : List Nat) (rest : List (List Nat)) :
    (lsh_say (a0 :: rest)).ret = Ret.value 1 := by
  cases rest with
  | nil => rfl
  | cons first more => rw [lsh_say_call]

/-- The builtin `lsh_history` returns 1 on globals that hold a history. -/
theorem lsh_history_ret (g : Globals) (es : List (List Nat)) (hg : g.Holds es) :
    (lsh_history g).ret = Ret.value 1 := by
  by_cases hne : es = []
  · subst hne
    obtain ⟨-, h⟩ := hg
    unfold lsh_history
    cases hh : g.history with
    | none => rfl
    | some arr =>
      rw [hh] at h
      exact absurd rfl h.1
  · rw [lsh_history_call g es hg hne]

/-- The builtin `lsh_cd` returns 1 on every argument sequence. -/
theorem lsh_cd_ret (os : Os) (args : List (List Nat)) : (lsh_cd os args).ret = Ret.value 1 := by
  unfold lsh_cd
  split
  · rfl
  · split <;> rfl

/-- The wait loop either returns 1 or does not return. -/
theorem lsh_launch_wait_ret_cases (pid : Int) :
    ∀ statuses : List WaitStatus,
      (lsh_launch_wait pid statuses).ret = Ret.value 1 ∨
        (lsh_launch_wait pid statuses).ret = Ret.noReturn := by
  intro statuses
  induction statuses with
  | nil => exact Or.inr rfl
  | cons st more ih =>
    unfold lsh_launch_wait
    by_cases hst : (!WIFEXITED st && !WIFSIGNALED st) = true
    · rw [if_pos hst]
      exact ih
    · rw [if_neg hst]
      exact Or.inl rfl

/-- In any process, `lsh_launch` either returns 1 or does not return. -/
theorem lsh_launch_ret_cases (os : Os) (args : List (List Nat)) :
    (lsh_launch os args).ret = Ret.value 1 ∨ (lsh_launch os args).ret = Ret.noReturn := by
  unfold lsh_launch
  split_ifs
  · exact Or.inr rfl
  · exact Or.inr rfl
  · exact Or.inl rfl
  · exact lsh_launch_wait_ret_cases _ _

/-- Claim C10: in the shell process, with globals holding a history and a
child that, once forked, ends by exit or signal, `lsh_execute` returns the stop
signal 0 if and only if the first token is exactly `exit`, and then it does
nothing else, in particular it does not fork; for every other token sequence
(the empty one, the other builtins with any arguments, any external command
whether `fork` fails or the child exits or is killed) it returns the continue
signal 1; on the empty sequence it returns 1 without calling any handler or the
launcher, whatever these are.  In any process and whatever the child does, a
value it returns is 0 on `exit` and 1 otherwise. -/
theorem lsh_execute_signal (os : Os) (g : Globals) (es : List (List Nat))
    (args : List (List Nat)) (hg : g.Holds es) (hshell : os.forkResult ≠ 0)
    (hterm : os.forkResult > 0 →
      ∃ s ∈ os.waitStatuses, WIFEXITED s = true ∨ WIFSIGNALED s = true) :
    ((lsh_execute os g args).ret = Ret.value 0 ↔ args.head? = some (bytes "exit")) ∧
    (args.head? = some (bytes "exit") → lsh_execute os g args = ⟨Ret.value 0, []⟩) ∧
    (args.head? ≠ some (bytes "exit") → (lsh_execute os g args).ret = Ret.value 1) ∧
    (args = [] → ∀ (funcs : List (List (List Nat) → Call)) (launch : List (List Nat) → Call),
      lsh_execute_with funcs launch args = ⟨Ret.value 1, []⟩) ∧
    (∀ (os1 : Os) (v : Int), (lsh_execute os1 g args).ret = Ret.value v →
      (v = 0 ∧ args.head? = some (bytes "exit")) ∨
        (v = 1 ∧ args.head? ≠ some (bytes "exit"))) := by
  have hexit : args.head? = some (bytes "exit") → lsh_execute os g args = ⟨Ret.value 0, []⟩ := by
    intro h
    cases args with
    | nil => simp at h
    | cons a0 rest =>
      simp only [List.head?_cons, Option.some.injEq] at h
      subst h
      rfl
  have hother : args.head? ≠ some (bytes "exit") →
      (lsh_execute os g args).ret = Ret.value 1 := by
    intro h
    cases args with
    | nil => rfl
    | cons a0 rest =>
      simp only [List.head?_cons, ne_eq, Option.some.injEq] at h
      unfold lsh_execute builtin_func
      rw [lsh_execute_with_cons, if_neg h]
      split_ifs
      · exact lsh_cd_ret os _
      · rfl
      · exact lsh_say_ret a0 rest
      · exact lsh_history_ret g es hg
      · exact lsh_launch_ret os _ hshell hterm
  refine ⟨⟨fun h => ?_, fun h => by rw [hexit h]⟩, hexit, hother, ?_, ?_⟩
  · by_contra hne
    rw [hother hne] at h
    simp at h
  · intro hnil funcs launch
    subst hnil
    rfl
  · intro os1 v hv
    cases args with
    | nil =>
      refine Or.inr ⟨?_, by simp⟩
      have h1 : (lsh_execute os1 g []).ret = Ret.value 1 := rfl
      rw [h1] at hv
      simpa using hv.symm
    | cons a0 rest =>
      by_cases h : a0 = bytes "exit"
      · subst h
        refine Or.inl ⟨?_, rfl⟩
        have h0 : (lsh_execute os1 g (bytes "exit" :: rest)).ret = Ret.value 0 := rfl
        rw [h0] at hv
        simpa using hv.symm
      · refine Or.inr ⟨?_, by simpa using h⟩
        have h1 : (lsh_execute os1 g (a0 :: rest)).ret = Ret.value 1 ∨
            (lsh_execute os1 g (a0 :: rest)).ret = Ret.noReturn := by
          unfold lsh_execute builtin_func
          rw [lsh_execute_with_cons, if_neg h]
          split_ifs
          · exact Or.inl (lsh_cd_ret os1 _)
          · exact Or.inl rfl
          · exact Or.inl (lsh_say_ret a0 rest)
          · exact Or.inl (lsh_history_ret g es hg)
          · exact lsh_launch_ret_cases os1 _
        rcases h1 with h1 | h1
        · rw [h1] at hv
          simpa using hv.symm
        · rw [h1] at hv
          simp at hv

/-- Witness for C10: in the shell process, on a fresh history, `exit now` stops
the loop and `ls`, run in a child that is stopped once and then exits with
status 2, continues it. -/
theorem lsh_execute_signal_witness :
    (((lsh_execute ⟨4242, true, 0, [WaitStatus.stopped 19, WaitStatus.exited 2]⟩ Globals.init
          [bytes "ls"]).ret = Ret.value 0 ↔
        [bytes "ls"].head? = some (bytes "exit")) ∧
      ([bytes "ls"].head? = some (bytes "exit") →
        lsh_execute ⟨4242, true, 0, [WaitStatus.stopped 19, WaitStatus.exited 2]⟩ Globals.init
          [bytes "ls"] = ⟨Ret.value 0, []⟩) ∧
      ([bytes "ls"].head? ≠ some (bytes "exit") →
        (lsh_execute ⟨4242, true, 0, [WaitStatus.stopped 19, WaitStatus.exited 2]⟩ Globals.init
          [bytes "ls"]).ret = Ret.value 1) ∧
      ([bytes "ls"] = [] →
        ∀ (funcs : List (List (List Nat) → Call)) (launch : List (List Nat) → Call),
          lsh_execute_with funcs launch [bytes "ls"] = ⟨Ret.value 1, []⟩) ∧
      (∀ (os1 : Os) (v : Int), (lsh_execute os1 Globals.init [bytes "ls"]).ret = Ret.value v →
        (v = 0 ∧ [bytes "ls"].head? = some (bytes "exit")) ∨
          (v = 1 ∧ [bytes "ls"].head? ≠ some (bytes "exit")))) ∧
    lsh_execute ⟨4242, true, 0, [WaitStatus.stopped 19, WaitStatus.exited 2]⟩ Globals.init
        [bytes "exit", bytes "now"] = ⟨Ret.value 0, []⟩ ∧
    lsh_execute ⟨4242, true, 0, [WaitStatus.stopped 19, WaitStatus.exited 2]⟩ Globals.init
        [bytes "ls"] =
      ⟨Ret.value 1, [Effect.fork, Effect.waitpid 4242, Effect.waitpid 4242]⟩ :=
  ⟨lsh_execute_signal ⟨4242, true, 0, [WaitStatus.stopped 19, WaitStatus.exited 2]⟩
      Globals.init [] [bytes "ls"] ⟨rfl, rfl, by decide⟩ (by decide)
      (fun _ => ⟨WaitStatus.exited 2, by decide, Or.inl rfl⟩),
    by decide, by decide⟩

/-! ## Theorems about single keys of the editor -/

/-- Claim C11: a delete byte received while the buffer is empty (cursor 0) is
a no-op: the locals, and so buffer contents, length, cursor and output, are
unchanged, no erase sequence or any other byte is written, and the loop goes on
with the next byte. -/
theorem backspace_empty (g : Globals) (e : Editor) (rest : List Nat) (h : e.position = 0) :
    e.backspace = some e ∧
      lsh_read_line_loop g e (127 :: rest) = lsh_read_line_loop g e rest := by
  have hb : e.backspace = some e := by
    unfold Editor.backspace
    rw [if_neg (by omega)]
  refine ⟨hb, ?_⟩
  rw [read_loop_cons g e 127 rest (by decide), if_neg (by decide), if_neg (by decide),
    if_pos rfl, hb]

/-- Witness for C11: a delete byte as the first key of a fresh call, followed
by `a` and Enter. -/
theorem backspace_empty_witness :
    (Editor.init.backspace = some Editor.init ∧
      lsh_read_line_loop Globals.init Editor.init (127 :: [97, 10]) =
        lsh_read_line_loop Globals.init Editor.init [97, 10]) ∧
    lsh_read_line Globals.init (127 :: [97, 10]) =
      ReadOutcome.returned [97] ⟨1024, [97], -1, [97, 10]⟩ [] :=
  ⟨backspace_empty Globals.init Editor.init [97, 10] rfl, by decide⟩

/-- The loop on one delete byte from the head of the loop. -/
theorem read_loop_delete (g : Globals) (e : Editor) :
    lsh_read_line_loop g e [127] =
      match e.backspace with
      | none => ReadOutcome.undefined
      | some e1 => ReadOutcome.starved e1 [] := by
  rw [read_loop_cons g e 127 [] (by decide), if_neg (by decide), if_neg (by decide), if_pos rfl]
  cases e.backspace <;> simp [lsh_read_line_loop]

/-- The loop on one byte that is none of the control bytes, from the head of
the loop. -/
theorem read_loop_normal (g : Globals) (e : Editor) (c : Nat) (h10 : c ≠ 10) (h4 : c ≠ 4)
    (h127 : c ≠ 127) (h27 : c ≠ 27) :
    lsh_read_line_loop g e [c] =
      match e.normalChar c with
      | none => ReadOutcome.undefined
      | some e1 => ReadOutcome.starved e1 [] := by
  rw [read_loop_cons g e c [] h27, if_neg h10, if_neg h4, if_neg h127]
  cases e.normalChar c <;> simp [lsh_read_line_loop]

/-- A normal character typed with the cursor below the capacity, when the
store does not fill the buffer or the grown capacity is an `int`. -/
theorem normalChar_of_room (e : Editor) (c : Nat) (hlt : e.position < e.bufsize)
    (hroom : e.position + 1 < e.bufsize ∨ e.bufsize + LSH_RL_BUFSIZE ≤ INT_MAX) :
    e.normalChar c = some
      (if e.position + 1 ≥ e.bufsize then
        ⟨e.bufsize + LSH_RL_BUFSIZE, e.buffer ++ [c], e.historyIndex, e.out ++ [c]⟩
      else ⟨e.bufsize, e.buffer ++ [c], e.historyIndex, e.out ++ [c]⟩) := by
  unfold Editor.normalChar
  simp only [Editor.position, List.length_append, List.length_singleton] at hlt hroom ⊢
  rw [if_pos hlt]
  by_cases hfull : e.buffer.length + 1 ≥ e.bufsize
  · have hint : e.bufsize + LSH_RL_BUFSIZE ≤ INT_MAX := by
      rcases hroom with h | h
      · omega
      · exact h
    simp only [if_pos hfull, if_pos hint]
  · simp only [if_neg hfull]

/-- A normal character typed with the cursor below the capacity has no defined
result when the store fills the buffer and the grown capacity is not an
`int`. -/
theorem normalChar_no_room (e : Editor) (c : Nat)
    (hroom : ¬ (e.position + 1 < e.bufsize ∨ e.bufsize + LSH_RL_BUFSIZE ≤ INT_MAX)) :
    e.normalChar c = none := by
  unfold Editor.normalChar
  simp only [Editor.position, List.length_append, List.length_singleton] at hroom ⊢
  have h1 : e.buffer.length + 1 ≥ e.bufsize := by omega
  have h2 : ¬ e.bufsize + LSH_RL_BUFSIZE ≤ INT_MAX := fun h => hroom (Or.inr h)
  by_cases hlt : e.buffer.length < e.bufsize
  · simp only [if_pos hlt, if_pos h1, if_neg h2]
  · simp only [if_neg hlt]

/-- Claim C14, amended: at every point of a call where the input so far has
left the function at the head of its loop, a delete byte with the cursor above
0 removes exactly the last character of the buffer, the one before the cursor,
lowers the cursor by one, leaves the earlier characters, the capacity and the
navigation index as they were and writes the erase sequence `\b \b`.  A
printable byte followed by a delete byte restores buffer contents and cursor
whenever the byte can be typed: when it does not fill the buffer, or the
capacity grown by 1024 is an `int`, which is so for every cursor below
2147482623. -/
theorem backspace_removes_last (g : Globals) (es : List (List Nat)) (hg : g.Holds es)
    (pre : List Nat) (e : Editor) (hpre : lsh_read_line g pre = ReadOutcome.starved e []) :
    (0 < e.position →
      ∃ e1 x, lsh_read_line g (pre ++ [127]) = ReadOutcome.starved e1 [] ∧
        e.buffer = e1.buffer ++ [x] ∧ e1.buffer = e.buffer.dropLast ∧
        e1.position = e.position - 1 ∧ e1.out = e.out ++ eraseSeq ∧
        e1.bufsize = e.bufsize ∧ e1.historyIndex = e.historyIndex) ∧
    (∀ c : Nat, 32 ≤ c → c ≤ 126 →
      (e.position + 1 < e.bufsize ∨ e.bufsize + LSH_RL_BUFSIZE ≤ INT_MAX) →
      ∃ e2, lsh_read_line g (pre ++ [c, 127]) = ReadOutcome.starved e2 [] ∧
        e2.buffer = e.buffer ∧ e2.position = e.position ∧
        e2.out = e.out ++ [c] ++ eraseSeq ∧ e2.historyIndex = e.historyIndex) ∧
    (e.position + 1 + LSH_RL_BUFSIZE ≤ INT_MAX →
      (e.position + 1 < e.bufsize ∨ e.bufsize + LSH_RL_BUFSIZE ≤ INT_MAX)) := by
  have hinv : Editor.Inv es e :=
    read_loop_inv g es hg _ pre Editor.init e [] (Nat.le_refl _) (Inv.init es) hpre
  have happ : ∀ rest, lsh_read_line g (pre ++ rest) = lsh_read_line_loop g e rest :=
    fun rest => read_loop_append g _ pre Editor.init e rest (Nat.le_refl _) hpre
  obtain ⟨hlt, -⟩ := hinv
  refine ⟨?_, ?_, ?_⟩
  · intro hpos
    have hne : e.buffer ≠ [] := by
      intro h
      simp [Editor.position, h] at hpos
    have hb : e.backspace =
        some ⟨e.bufsize, e.buffer.dropLast, e.historyIndex, e.out ++ eraseSeq⟩ := by
      unfold Editor.backspace
      rw [if_pos hpos, if_pos (by simp only [Editor.position]; omega)]
    refine ⟨⟨e.bufsize, e.buffer.dropLast, e.historyIndex, e.out ++ eraseSeq⟩,
      e.buffer.getLast hne, ?_, ?_, rfl, ?_, rfl, rfl, rfl⟩
    · rw [happ, read_loop_delete, hb]
    · exact (List.dropLast_append_getLast hne).symm
    · simp [Editor.position]
  · intro c hc1 hc2 hroom
    have hn := normalChar_of_room e c hlt hroom
    simp only [Editor.position] at hn
    have hsplit : pre ++ [c, 127] = (pre ++ [c]) ++ [127] := by simp
    have h1 : lsh_read_line g (pre ++ [c]) = ReadOutcome.starved
        (if e.buffer.length + 1 ≥ e.bufsize then
          ⟨e.bufsize + LSH_RL_BUFSIZE, e.buffer ++ [c], e.historyIndex, e.out ++ [c]⟩
        else ⟨e.bufsize, e.buffer ++ [c], e.historyIndex, e.out ++ [c]⟩) [] := by
      rw [happ, read_loop_normal g e c (by omega) (by omega) (by omega) (by omega), hn]
    unfold lsh_read_line at h1 ⊢
    rw [hsplit, read_loop_append g _ _ _ _ _ (Nat.le_refl _) h1, read_loop_delete]
    by_cases hfull : e.buffer.length + 1 ≥ e.bufsize
    · simp only [if_pos hfull]
      refine ⟨⟨e.bufsize + LSH_RL_BUFSIZE, e.buffer, e.historyIndex,
        e.out ++ [c] ++ eraseSeq⟩, ?_, rfl, rfl, rfl, rfl⟩
      unfold Editor.backspace
      simp only [Editor.position, List.length_append, List.length_singleton]
      rw [if_pos (by omega), if_pos (by simp only [LSH_RL_BUFSIZE]; omega)]
      simp
    · simp only [if_neg hfull]
      refine ⟨⟨e.bufsize, e.buffer, e.historyIndex, e.out ++ [c] ++ eraseSeq⟩, ?_, rfl, rfl,
        rfl, rfl⟩
      unfold Editor.backspace
      simp only [Editor.position, List.length_append, List.length_singleton]
      rw [if_pos (by omega), if_pos (by omega)]
      simp
  · intro h
    by_cases hfull : e.position + 1 < e.bufsize
    · exact Or.inl hfull
    · exact Or.inr (by omega)

/-- Witness for C14: after `ab` has been typed at a fresh prompt. -/
theorem backspace_removes_last_witness :
    (0 < (⟨1024, [97, 98], -1, [97, 98]⟩ : Editor).position →
      ∃ e1 x, lsh_read_line Globals.init ([97, 98] ++ [127]) = ReadOutcome.starved e1 [] ∧
        (⟨1024, [97, 98], -1, [97, 98]⟩ : Editor).buffer = e1.buffer ++ [x] ∧
        e1.buffer = (⟨1024, [97, 98], -1, [97, 98]⟩ : Editor).buffer.dropLast ∧
        e1.position = (⟨1024, [97, 98], -1, [97, 98]⟩ : Editor).position - 1 ∧
        e1.out = (⟨1024, [97, 98], -1, [97, 98]⟩ : Editor).out ++ eraseSeq ∧
        e1.bufsize = (⟨1024, [97, 98], -1, [97, 98]⟩ : Editor).bufsize ∧
        e1.historyIndex = (⟨1024, [97, 98], -1, [97, 98]⟩ : Editor).historyIndex) ∧
    (∀ c : Nat, 32 ≤ c → c ≤ 126 →
      ((⟨1024, [97, 98], -1, [97, 98]⟩ : Editor).position + 1 <
          (⟨1024, [97, 98], -1, [97, 98]⟩ : Editor).bufsize ∨
        (⟨1024, [97, 98], -1, [97, 98]⟩ : Editor).bufsize + LSH_RL_BUFSIZE ≤ INT_MAX) →
      ∃ e2, lsh_read_line Globals.init ([97, 98] ++ [c, 127]) = ReadOutcome.starved e2 [] ∧
        e2.buffer = (⟨1024, [97, 98], -1, [97, 98]⟩ : Editor).buffer ∧
        e2.position = (⟨1024, [97, 98], -1, [97, 98]⟩ : Editor).position ∧
        e2.out = (⟨1024, [97, 98], -1, [97, 98]⟩ : Editor).out ++ [c] ++ eraseSeq ∧
        e2.historyIndex = (⟨1024, [97, 98], -1, [97, 98]⟩ : Editor).historyIndex) ∧
    ((⟨1024, [97, 98], -1, [97, 98]⟩ : Editor).position + 1 + LSH_RL_BUFSIZE ≤ INT_MAX →
      ((⟨1024, [97, 98], -1, [97, 98]⟩ : Editor).position + 1 <
          (⟨1024, [97, 98], -1, [97, 98]⟩ : Editor).bufsize ∨
        (⟨1024, [97, 98], -1, [97, 98]⟩ : Editor).bufsize + LSH_RL_BUFSIZE ≤ INT_MAX)) :=
  backspace_removes_last Globals.init [] ⟨rfl, rfl, by decide⟩ [97, 98]
    ⟨1024, [97, 98], -1, [97, 98]⟩ (by decide)

/-- Claim C15: for every editor state and every two bytes `c1`, `c2` after an
escape byte, unless `c1` is `[` and `c2` is `A` or `B`, exactly these two bytes
are consumed and nothing else happens: buffer, cursor, navigation index,
capacity and output are unchanged and the loop goes on with the byte after
`c2`, also when `c1` or `c2` is a newline, a delete or another control byte. -/
theorem escape_ignored (g : Globals) (e : Editor) (c1 c2 : Nat) (rest : List Nat)
    (h : ¬ (c1 = 91 ∧ (c2 = 65 ∨ c2 = 66))) :
    e.escape g c1 c2 = some e ∧
      lsh_read_line_loop g e (27 :: c1 :: c2 :: rest) = lsh_read_line_loop g e rest := by
  have hesc : e.escape g c1 c2 = some e := by
    unfold Editor.escape
    by_cases h1 : c1 = 91
    · have h65 : ¬ (c2 = 65 ∧ g.historyPos > 0) := fun hh => h ⟨h1, Or.inl hh.1⟩
      have h66 : ¬ c2 = 66 := fun hh => h ⟨h1, Or.inr hh⟩
      rw [if_pos h1, if_neg h65, if_neg h66]
    · rw [if_neg h1]
  exact ⟨hesc, by rw [read_loop_esc, hesc]⟩

/-- Witness for C15: escape, newline, delete, then `a` and Enter, with `ls` in
the history and `x` in the buffer. -/
theorem escape_ignored_witness :
    (Editor.escape
        ⟨some (Slot.ptr (bytes "ls") :: Slot.null :: List.replicate 62 Slot.uninit), 1, 64⟩
        ⟨1024, [120], -1, [120]⟩ 10 127 = some ⟨1024, [120], -1, [120]⟩ ∧
      lsh_read_line_loop
        ⟨some (Slot.ptr (bytes "ls") :: Slot.null :: List.replicate 62 Slot.uninit), 1, 64⟩
        ⟨1024, [120], -1, [120]⟩ (27 :: 10 :: 127 :: [97, 10]) =
      lsh_read_line_loop
        ⟨some (Slot.ptr (bytes "ls") :: Slot.null :: List.replicate 62 Slot.uninit), 1, 64⟩
        ⟨1024, [120], -1, [120]⟩ [97, 10]) ∧
    lsh_read_line
        ⟨some (Slot.ptr (bytes "ls") :: Slot.null :: List.replicate 62 Slot.uninit), 1, 64⟩
        [120, 27, 10, 127, 97, 10] =
      ReadOutcome.returned [120, 97] ⟨1024, [120, 97], -1, [120, 97, 10]⟩ [] :=
  ⟨escape_ignored
      ⟨some (Slot.ptr (bytes "ls") :: Slot.null :: List.replicate 62 Slot.uninit), 1, 64⟩
      ⟨1024, [120], -1, [120]⟩ 10 127 [97, 10] (by decide),
    by decide⟩

/-- Claim C12: for every argument sequence `lsh_cd` returns the continue signal
1; with a directory argument present it asks for exactly one change of the
working directory, to exactly that argument, and writes nothing but, when the
change fails, the `perror` report; with no argument it makes no `chdir` call and
writes the usage error to the diagnostic stream. -/
theorem lsh_cd_request (os : Os) (args : List (List Nat)) :
    (lsh_cd os args).ret = Ret.value 1 ∧
    (∀ a0 dir more, args = a0 :: dir :: more →
      (lsh_cd os args).effects =
        (if os.chdirResult ≠ 0 then [Effect.chdir dir, Effect.perror (bytes "lsh")]
          else [Effect.chdir dir]) ∧
      (lsh_cd os args).effects.filter
        (fun x => match x with | Effect.chdir _ => true | _ => false) = [Effect.chdir dir]) ∧
    (∀ a0, args = [a0] →
      (lsh_cd os args).effects =
        [Effect.stderr (bytes "lsh: expected argument to \"cd\"\n")] ∧
      ∀ dir, Effect.chdir dir ∉ (lsh_cd os args).effects) := by
  refine ⟨lsh_cd_ret os args, ?_, ?_⟩
  · intro a0 dir more hargs
    subst hargs
    unfold lsh_cd
    simp only [List.get?_cons_succ, List.get?_cons_zero]
    by_cases hc : os.chdirResult ≠ 0
    · simp only [if_pos hc]
      exact ⟨trivial, rfl⟩
    · simp only [if_neg hc]
      exact ⟨trivial, rfl⟩
  · intro a0 hargs
    subst hargs
    refine ⟨rfl, fun dir hmem => ?_⟩
    have : (lsh_cd os [a0]).effects =
        [Effect.stderr (bytes "lsh: expected argument to \"cd\"\n")] := rfl
    rw [this] at hmem
    simp at hmem

/-- Examples for C12: `cd /tmp` that succeeds, `cd /nowhere` that fails, and
`cd` alone. -/
theorem lsh_cd_request_witness :
    lsh_cd ⟨1, true, 0, []⟩ [bytes "cd", bytes "/tmp"] =
      ⟨Ret.value 1, [Effect.chdir (bytes "/tmp")]⟩ ∧
    lsh_cd ⟨1, true, -1, []⟩ [bytes "cd", bytes "/nowhere"] =
      ⟨Ret.value 1, [Effect.chdir (bytes "/nowhere"), Effect.perror (bytes "lsh")]⟩ ∧
    lsh_cd ⟨1, true, 0, []⟩ [bytes "cd"] =
      ⟨Ret.value 1, [Effect.stderr (bytes "lsh: expected argument to \"cd\"\n")]⟩ ∧
    (lsh_cd ⟨1, true, 0, []⟩ [bytes "cd", bytes "/tmp"]).ret = Ret.value 1 :=
  ⟨by decide, by decide, by decide,
    (lsh_cd_request ⟨1, true, 0, []⟩ [bytes "cd", bytes "/tmp"]).1⟩

/-- The wait loop when the first status that reports an exit or a signal is at
position `k`: `k + 1` calls of `waitpid` on the pid, then the value 1. -/
theorem lsh_launch_wait_count (pid : Int) :
    ∀ (k : Nat) (statuses : List WaitStatus) (last : WaitStatus),
      statuses.get? k = some last → (WIFEXITED last = true ∨ WIFSIGNALED last = true) →
      (∀ (i : Nat) (s : WaitStatus), i < k → statuses.get? i = some s →
        WIFEXITED s = false ∧ WIFSIGNALED s = false) →
      lsh_launch_wait pid statuses =
        ⟨Ret.value 1, List.replicate (k + 1) (Effect.waitpid pid)⟩ := by
  intro k
  induction k with
  | zero =>
    intro statuses last hk hterm _
    cases statuses with
    | nil => simp at hk
    | cons st more =>
      simp only [List.get?_cons_zero, Option.some.injEq] at hk
      subst hk
      unfold lsh_launch_wait
      have : ¬ ((!WIFEXITED st && !WIFSIGNALED st) = true) := by
        rcases hterm with h | h <;> simp [h]
      rw [if_neg this]
      rfl
  | succ k ih =>
    intro statuses last hk hterm hstop
    cases statuses with
    | nil => simp at hk
    | cons st more =>
      simp only [List.get?_cons_succ] at hk
      have h0 := hstop 0 st (by omega) rfl
      have hrec := ih more last hk hterm
        (fun i s hi hs => hstop (i + 1) s (by omega) (by simpa using hs))
      unfold lsh_launch_wait
      have : (!WIFEXITED st && !WIFSIGNALED st) = true := by simp [h0.1, h0.2]
      rw [if_pos this, hrec]
      rfl

/-- The wait loop while every status is a stop notification: it does not
return. -/
theorem lsh_launch_wait_blocked (pid : Int) :
    ∀ statuses : List WaitStatus,
      (∀ s ∈ statuses, WIFEXITED s = false ∧ WIFSIGNALED s = false) →
      lsh_launch_wait pid statuses =
        ⟨Ret.noReturn, List.replicate (statuses.length + 1) (Effect.waitpid pid)⟩ := by
  intro statuses
  induction statuses with
  | nil => intro _; rfl
  | cons st more ih =>
    intro h
    have h0 := h st (List.mem_cons_self _ _)
    have hrec := ih (fun s hs => h s (List.mem_cons_of_mem _ hs))
    unfold lsh_launch_wait
    have : (!WIFEXITED st && !WIFSIGNALED st) = true := by simp [h0.1, h0.2]
    rw [if_pos this, hrec]
    rfl

/-- Claim C17: in the parent branch of `lsh_launch` (`fork` returned the
child pid, above 0), with the statuses `waitpid` reports given as a sequence:
if the first status that reports a normal exit or a termination by signal is at
position `k`, the parent forks, performs exactly `k + 1` waits, each on the
child pid, and returns 1; if all the statuses are stop notifications it keeps
waiting and does not return. -/
theorem lsh_launch_waits (os : Os) (args : List (List Nat)) (hparent : os.forkResult > 0) :
    (∀ (k : Nat) (last : WaitStatus), os.waitStatuses.get? k = some last →
      (WIFEXITED last = true ∨ WIFSIGNALED last = true) →
      (∀ (i : Nat) (s : WaitStatus), i < k → os.waitStatuses.get? i = some s →
        WIFEXITED s = false ∧ WIFSIGNALED s = false) →
      lsh_launch os args =
        ⟨Ret.value 1, Effect.fork :: List.replicate (k + 1) (Effect.waitpid os.forkResult)⟩) ∧
    ((∀ s ∈ os.waitStatuses, WIFEXITED s = false ∧ WIFSIGNALED s = false) →
      (lsh_launch os args).ret = Ret.noReturn) := by
  have h0 : ¬ os.forkResult = 0 := by omega
  have hneg : ¬ os.forkResult < 0 := by omega
  constructor
  · intro k last hk hterm hstop
    unfold lsh_launch
    rw [if_neg h0, if_neg hneg, lsh_launch_wait_count os.forkResult k _ last hk hterm hstop]
  · intro hall
    unfold lsh_launch
    rw [if_neg h0, if_neg hneg, lsh_launch_wait_blocked os.forkResult _ hall]

/-- Witness for C17: a child that is stopped twice and then killed by signal 9:
three waits. -/
theorem lsh_launch_waits_witness :
    ((∀ (k : Nat) (last : WaitStatus),
        [WaitStatus.stopped 19, WaitStatus.stopped 20, WaitStatus.signaled 9].get? k =
          some last →
        (WIFEXITED last = true ∨ WIFSIGNALED last = true) →
        (∀ (i : Nat) (s : WaitStatus), i < k →
          [WaitStatus.stopped 19, WaitStatus.stopped 20, WaitStatus.signaled 9].get? i =
            some s →
          WIFEXITED s = false ∧ WIFSIGNALED s = false) →
        lsh_launch
            ⟨77, true, 0, [WaitStatus.stopped 19, WaitStatus.stopped 20, WaitStatus.signaled 9]⟩
            [bytes "vi"] =
          ⟨Ret.value 1, Effect.fork :: List.replicate (k + 1) (Effect.waitpid 77)⟩) ∧
      ((∀ s ∈ [WaitStatus.stopped 19, WaitStatus.stopped 20, WaitStatus.signaled 9],
          WIFEXITED s = false ∧ WIFSIGNALED s = false) →
        (lsh_launch
          ⟨77, true, 0, [WaitStatus.stopped 19, WaitStatus.stopped 20, WaitStatus.signaled 9]⟩
          [bytes "vi"]).ret = Ret.noReturn)) ∧
    lsh_launch
        ⟨77, true, 0, [WaitStatus.stopped 19, WaitStatus.stopped 20, WaitStatus.signaled 9]⟩
        [bytes "vi"] =
      ⟨Ret.value 1,
        [Effect.fork, Effect.waitpid 77, Effect.waitpid 77, Effect.waitpid 77]⟩ ∧
    (lsh_launch ⟨77, true, 0, [WaitStatus.stopped 19, WaitStatus.stopped 20]⟩
        [bytes "vi"]).ret = Ret.noReturn :=
  ⟨lsh_launch_waits
      ⟨77, true, 0, [WaitStatus.stopped 19, WaitStatus.stopped 20, WaitStatus.signaled 9]⟩
      [bytes "vi"] (by decide),
    by decide, by decide⟩

/-- Typing plain bytes from a loop state whose capacity is the least multiple of
`LSH_RL_BUFSIZE` above the cursor, up to the end of the input, as long as the
capacity that the typed bytes need is an `int`. -/
theorem read_loop_plain_starved (g : Globals) (s : List Nat) :
    ∀ (e : Editor),
      (∀ b ∈ s, b ≠ 10 ∧ b ≠ 4 ∧ b ≠ 127 ∧ b ≠ 27) →
      e.bufsize = LSH_RL_BUFSIZE * (e.buffer.length / LSH_RL_BUFSIZE + 1) →
      e.buffer.length + s.length + LSH_RL_BUFSIZE ≤ INT_MAX →
      lsh_read_line_loop g e s =
        ReadOutcome.starved
          ⟨LSH_RL_BUFSIZE * ((e.buffer.length + s.length) / LSH_RL_BUFSIZE + 1),
            e.buffer ++ s, e.historyIndex, e.out ++ s⟩ [] := by
  induction s with
  | nil =>
    intro e _ hcap _
    obtain ⟨bs, buf, hi, out⟩ := e
    simp only at hcap
    simp [lsh_read_line_loop, hcap]
  | cons b s ih =>
    intro e hs hcap hint
    obtain ⟨h10, h4, h127, h27⟩ := hs b (List.mem_cons_self b s)
    have hs2 : ∀ x ∈ s, x ≠ 10 ∧ x ≠ 4 ∧ x ≠ 127 ∧ x ≠ 27 :=
      fun x hx => hs x (List.mem_cons_of_mem b hx)
    simp only [List.length_cons] at hint
    rw [read_loop_cons g e b _ h27, if_neg h10, if_neg h4, if_neg h127,
      normalChar_plain e b hcap (by omega)]
    simp only
    rw [ih _ hs2 (by simp) (by simp only [List.length_append, List.length_singleton]; omega)]
    simp [Nat.add_assoc, Nat.add_comm 1]

/-- The capacity after a normal character: the old one plus `LSH_RL_BUFSIZE`
when the store filled the buffer, the old one otherwise. -/
theorem normalChar_bufsize (e e1 : Editor) (c : Nat) (h : e.normalChar c = some e1) :
    e1.bufsize =
      if e.position + 1 ≥ e.bufsize then e.bufsize + LSH_RL_BUFSIZE else e.bufsize := by
  unfold Editor.normalChar at h
  simp only [Editor.position, List.length_append, List.length_singleton] at h ⊢
  split_ifs at h with h1 h2
  · simp only [Option.some.injEq] at h
    subst h
    rw [if_pos h2]
  · simp only [Option.some.injEq] at h
    subst h
    rw [if_neg h2]

/-- The capacity and the count after a line has been archived: the capacity is
the old one plus `LSH_TOK_BUFSIZE` when the new entry filled the array, the old
one otherwise. -/
theorem archive_size (g g1 : Globals) (l : List Nat) (h : archive g l = some g1) :
    g1.historyPos = g.historyPos + 1 ∧
      g1.historyBuffSize =
        if g.historyPos + 1 ≥ g.historyBuffSize then g.historyBuffSize + LSH_TOK_BUFSIZE
        else g.historyBuffSize := by
  unfold archive at h
  simp only at h
  split_ifs at h <;> simp only [Option.some.injEq] at h <;> subst h <;>
    first
      | exact ⟨rfl, by rw [if_pos (by assumption)]⟩
      | exact ⟨rfl, by rw [if_neg (by assumption)]⟩

/-- Plain bytes typed at a fresh prompt, up to the end of the input. -/
theorem typed_capacity (g : Globals) (s : List Nat)
    (hs : ∀ b ∈ s, b ≠ 10 ∧ b ≠ 4 ∧ b ≠ 127 ∧ b ≠ 27)
    (hint : s.length + LSH_RL_BUFSIZE ≤ INT_MAX) :
    lsh_read_line g s =
      ReadOutcome.starved ⟨LSH_RL_BUFSIZE * (s.length / LSH_RL_BUFSIZE + 1), s, -1, s⟩ [] := by
  have h := read_loop_plain_starved g s Editor.init hs (by simp [Editor.init, LSH_RL_BUFSIZE])
    (by simpa [Editor.init] using hint)
  simpa [lsh_read_line, Editor.init] using h

/-- A byte typed into a buffer of capacity 2048 that holds 2047 bytes. -/
theorem normalChar_second_growth (buf out : List Nat) (hlen : buf.length = 2047) (c : Nat)
    (idx : Int) :
    Editor.normalChar ⟨2048, buf, idx, out⟩ c = some ⟨3072, buf ++ [c], idx, out ++ [c]⟩ := by
  unfold Editor.normalChar
  simp only [Editor.position, List.length_append, List.length_singleton, hlen,
    LSH_RL_BUFSIZE, INT_MAX]
  rw [if_pos (by omega), if_pos (by omega), if_pos (by omega)]

/-- Counterexample to C13 as stated: after 2047 bytes typed at a fresh prompt
the capacity is 2048; the next byte fills the buffer and the capacity becomes
3072, which is not twice 2048. -/
theorem growth_is_not_doubling :
    ∃ e1 e2, lsh_read_line Globals.init (List.replicate 2047 97) = ReadOutcome.starved e1 [] ∧
      e1.bufsize = 2048 ∧ e1.normalChar 97 = some e2 ∧ e2.bufsize = 3072 ∧
      e2.bufsize ≠ 2 * e1.bufsize := by
  have h1 := typed_capacity Globals.init (List.replicate 2047 97)
    (fun b hb => by rw [List.eq_of_mem_replicate hb]; decide)
    (by rw [List.length_replicate]; simp [LSH_RL_BUFSIZE, INT_MAX])
  rw [List.length_replicate] at h1
  exact ⟨_, _, h1, rfl,
    normalChar_second_growth _ _ (List.length_replicate _ _) 97 (-1), rfl, by decide⟩

/-- The copy of a history entry into the buffer leaves the capacity alone. -/
theorem strcpy_bufsize (e e1 : Editor) (s : List Nat) (h : e.strcpy s = some e1) :
    e1.bufsize = e.bufsize := by
  unfold Editor.strcpy at h
  split_ifs at h
  simp only [Option.some.injEq] at h
  subst h
  rfl

/-- The Up arrow leaves the capacity alone. -/
theorem arrowUp_bufsize (g : Globals) (e e1 : Editor) (h : e.arrowUp g = some e1) :
    e1.bufsize = e.bufsize := by
  unfold Editor.arrowUp at h
  simp only at h
  split at h
  · simp at h
  · split at h
    · simp at h
    · rename_i e2 hcopy
      simp only [Option.some.injEq] at h
      subst h
      have := strcpy_bufsize _ _ _ hcopy
      simp only at this ⊢
      rw [this]
      split_ifs <;> rfl

/-- The Down arrow leaves the capacity alone. -/
theorem arrowDown_bufsize (g : Globals) (e e1 : Editor) (h : e.arrowDown g = some e1) :
    e1.bufsize = e.bufsize := by
  unfold Editor.arrowDown at h
  by_cases hidx : e.historyIndex ≠ -1
  · rw [if_pos hidx] at h
    simp only at h
    split at h
    · simp at h
    · rename_i e2 hr
      simp only [Option.some.injEq] at h
      subst h
      simp only
      split_ifs at hr with h1 h2
      · simp only [Option.some.injEq] at hr
        subst hr
        rfl
      · split at hr
        · simp at hr
        · exact strcpy_bufsize
            ⟨e.bufsize, e.buffer, e.historyIndex + 1, e.out⟩ _ _ hr
  · rw [if_neg hidx] at h
    simp only [Option.some.injEq] at h
    subst h
    rfl

/-- Claim C13, amended: the growable arrays grow by a fixed increment, as far
as the new capacity is an `int`.  When a normal character fills the line buffer
the new capacity is the old one plus `LSH_RL_BUFSIZE` (1024), otherwise the
capacity stays; the delete byte and the escape sequences leave it alone.  When
an archived line fills the history array the new capacity is the old one plus
`LSH_TOK_BUFSIZE` (64), otherwise it stays.  No capacity ever decreases or
leaves the range of `int`.  At the head of the loop the store of a normal
character is defined exactly when it does not fill the buffer or the capacity
plus 1024 is at most `INT_MAX`, and on well-formed history globals whose
capacity plus 64 is at most `INT_MAX` the store of a line is defined. -/
theorem growth_is_additive :
    (∀ (e e1 : Editor) (c : Nat), e.normalChar c = some e1 →
      e1.bufsize =
        (if e.position + 1 ≥ e.bufsize then e.bufsize + LSH_RL_BUFSIZE else e.bufsize) ∧
      e.bufsize ≤ e1.bufsize ∧ (e.bufsize ≤ INT_MAX → e1.bufsize ≤ INT_MAX)) ∧
    (∀ (e e1 : Editor), e.backspace = some e1 → e1.bufsize = e.bufsize) ∧
    (∀ (g : Globals) (e e1 : Editor) (c1 c2 : Nat), e.escape g c1 c2 = some e1 →
      e1.bufsize = e.bufsize) ∧
    (∀ (g g1 : Globals) (l : List Nat), g.historyBuffSize + LSH_TOK_BUFSIZE ≤ INT_MAX →
      archive g l = some g1 →
      g1.historyBuffSize =
        (if g.historyPos + 1 ≥ g.historyBuffSize then g.historyBuffSize + LSH_TOK_BUFSIZE
          else g.historyBuffSize) ∧
      g.historyBuffSize ≤ g1.historyBuffSize ∧ g1.historyBuffSize ≤ INT_MAX) ∧
    (∀ (g : Globals) (line : List Nat) (r : SplitResult),
      g.historyBuffSize + LSH_TOK_BUFSIZE ≤ INT_MAX → lsh_split_line g line = some r →
      (r.globals.historyBuffSize = g.historyBuffSize ∨
        (g.historyPos + 1 ≥ g.historyBuffSize ∧
          r.globals.historyBuffSize = g.historyBuffSize + LSH_TOK_BUFSIZE))) ∧
    (∀ (es : List (List Nat)) (e : Editor) (c : Nat), Editor.Inv es e →
      ((e.position + 1 < e.bufsize ∨ e.bufsize + LSH_RL_BUFSIZE ≤ INT_MAX) ↔
        ∃ e1, e.normalChar c = some e1)) ∧
    (∀ (g : Globals) (es : List (List Nat)) (l : List Nat), g.Holds es →
      g.historyBuffSize + LSH_TOK_BUFSIZE ≤ INT_MAX → ∃ g1, archive g l = some g1) := by
  refine ⟨?_, ?_, ?_, ?_, ?_, ?_, ?_⟩
  · intro e e1 c h
    have hb := normalChar_bufsize e e1 c h
    refine ⟨hb, ?_, ?_⟩
    · rw [hb]
      split <;> omega
    · intro hle
      unfold Editor.normalChar at h
      simp only [Editor.position, List.length_append, List.length_singleton] at h
      split_ifs at h with h1 h2 h3
      · simp only [Option.some.injEq] at h
        subst h
        exact h3
      · simp only [Option.some.injEq] at h
        subst h
        exact hle
  · intro e e1 h
    unfold Editor.backspace at h
    split_ifs at h <;> simp only [Option.some.injEq] at h <;> subst h <;> rfl
  · intro g e e1 c1 c2 h
    unfold Editor.escape at h
    split_ifs at h
    · exact arrowUp_bufsize g e e1 h
    · exact arrowDown_bufsize g e e1 h
    · simp only [Option.some.injEq] at h; subst h; rfl
    · simp only [Option.some.injEq] at h; subst h; rfl
  · intro g g1 l hint h
    have hs := (archive_size g g1 l h).2
    refine ⟨hs, ?_, ?_⟩
    · rw [hs]
      split <;> omega
    · rw [hs]
      split <;> omega
  · intro g line r _ h
    unfold lsh_split_line at h
    simp only at h
    split at h
    · simp at h
    · split_ifs at h
      split at h
      · simp only [Option.some.injEq] at h
        subst h
        exact Or.inl rfl
      · split at h
        · simp at h
        · rename_i g1 harch
          simp only [Option.some.injEq] at h
          subst h
          have hs := (archive_size g g1 line harch).2
          simp only
          by_cases hfull : g.historyPos + 1 ≥ g.historyBuffSize
          · rw [if_pos hfull] at hs
            exact Or.inr ⟨hfull, hs⟩
          · rw [if_neg hfull] at hs
            exact Or.inl hs
  · intro es e c hinv
    have hlt : e.position < e.bufsize := hinv.1
    constructor
    · intro hroom
      exact ⟨_, normalChar_of_room e c hlt hroom⟩
    · intro ⟨e1, h1⟩
      by_contra hroom
      rw [normalChar_no_room e c hroom] at h1
      exact Option.noConfusion h1
  · intro g es l hg _
    obtain ⟨g1, h, -, -⟩ := archive_holds g es l hg
    exact ⟨g1, h⟩

/-! ## Theorems about allocation sizes and bounds -/

/-- Claim C19: for every argument sequence `say w1 .. wk`, `k >= 1`, the size
`lsh_say` passes to `malloc`, `(num - 2) + 1` plus the lengths of the words, is
exactly the length of the words joined by single spaces plus one for the
terminator; `num - 2` is not negative; the string after `strcpy` and after each
`strcat` pair fits, with its terminator, in the allocation; and the call does
not run into undefined behaviour. -/
theorem lsh_say_allocation (a0 w1 : List Nat) (ws : List (List Nat)) :
    lsh_say_size (a0 :: w1 :: ws) =
        (((List.intercalate [32] (w1 :: ws)).length + 1 : Nat) : Int) ∧
    (0 : Int) ≤ ((lsh_num_args (a0 :: w1 :: ws) : Nat) : Int) - 2 ∧
    lsh_say_join w1 ws = List.intercalate [32] (w1 :: ws) ∧
    (∀ j : Nat, (((lsh_say_join w1 (ws.take j)).length + 1 : Nat) : Int) ≤
      lsh_say_size (a0 :: w1 :: ws)) ∧
    (lsh_say (a0 :: w1 :: ws)).ret = Ret.value 1 := by
  refine ⟨?_, ?_, lsh_say_join_eq ws w1, ?_, ?_⟩
  · rw [lsh_say_size_eq, lsh_say_join_eq]
  · rw [lsh_num_args_eq]
    simp only [List.length_cons]
    push_cast
    omega
  · intro j
    rw [lsh_say_size_eq]
    apply Int.ofNat_le.mpr
    rw [lsh_say_join_length, lsh_say_join_length]
    have hsplit : ws = ws.take j ++ ws.drop j := (List.take_append_drop j ws).symm
    have hsum : (ws.map List.length).sum =
        ((ws.take j).map List.length).sum + ((ws.drop j).map List.length).sum := by
      conv_lhs => rw [hsplit]
      simp
    have hlen : (ws.take j).length ≤ ws.length := by
      simp only [List.length_take]
      omega
    omega
  · rw [lsh_say_call]

/-- Example for C19: for `say one two three` the size is 14, the length of
`one two three` plus one. -/
theorem lsh_say_allocation_witness :
    lsh_say_size [bytes "say", bytes "one", bytes "two", bytes "three"] = 14 ∧
      (bytes "one two three").length + 1 = 14 ∧
      lsh_say_join (bytes "one") [bytes "two", bytes "three"] = bytes "one two three" ∧
      lsh_say_size (bytes "say" :: bytes "one" :: [bytes "two", bytes "three"]) =
        (((List.intercalate [32] (bytes "one" :: [bytes "two", bytes "three"])).length + 1 :
          Nat) : Int) :=
  ⟨by decide, by decide, by decide,
    (lsh_say_allocation (bytes "say") (bytes "one") [bytes "two", bytes "three"]).1⟩

/-- Globals that hold entries satisfy the invariant of the history array as the
source relies on it. -/
theorem Holds.array_invariant {g : Globals} {es : List (List Nat)} (hg : g.Holds es) :
    (∀ arr, g.history = some arr →
      arr.length = g.historyBuffSize ∧ g.historyPos < g.historyBuffSize ∧
      0 < g.historyPos ∧
      (∀ i : Nat, i < g.historyPos → ∃ s, arr.get? i = some (Slot.ptr s)) ∧
      arr.get? g.historyPos = some Slot.null) ∧
    (g.history = none → g.historyPos = 0) := by
  obtain ⟨hpos, h⟩ := hg
  constructor
  · intro arr harr
    rw [harr] at h
    obtain ⟨hne, hlen, tl, rfl⟩ := h
    have hN : 0 < es.length := List.length_pos.mpr hne
    have hmap : (es.map Slot.ptr).length = es.length := by simp
    refine ⟨hlen, ?_, by omega, ?_, ?_⟩
    · rw [← hlen, hpos]
      simp
    · intro i hi
      rw [hpos] at hi
      refine ⟨es.get ⟨i, hi⟩, ?_⟩
      rw [List.get?_eq_getElem?, List.getElem?_append_left (by simpa using hi)]
      simp [List.getElem?_map, List.getElem?_eq_getElem hi]
    · rw [hpos, List.get?_eq_getElem?, List.getElem?_append_right (by simp)]
      simp
  · intro hnone
    rw [hnone] at h
    rw [hpos, h.1]
    rfl

/-- Claim C20: after every call of `lsh_split_line` in a run of the shell, that
is after any sequence of lines has been passed through it from program start:
whenever the history array is allocated it has `historyBuffSize` cells, the
count satisfies `0 < historyPos < historyBuffSize`, the cells
`0 .. historyPos-1` hold entries and the cell `historyPos` holds the NULL
sentinel; while it is not allocated the count is 0.  Hence the next call of
`lsh_split_line` stores entry and sentinel inside the array, and the scan of
`lsh_history`, which stops at the sentinel, stays inside it. -/
theorem history_array_invariant (lines : List (List Nat)) :
    ∃ g, submitLines Globals.init lines = some g ∧
      (∀ arr, g.history = some arr →
        arr.length = g.historyBuffSize ∧ g.historyPos < g.historyBuffSize ∧
        0 < g.historyPos ∧
        (∀ i : Nat, i < g.historyPos → ∃ s, arr.get? i = some (Slot.ptr s)) ∧
        arr.get? g.historyPos = some Slot.null) ∧
      (g.history = none → g.historyPos = 0) ∧
      (∀ line, ∃ r, lsh_split_line g line = some r) ∧
      (lsh_history g).ret = Ret.value 1 := by
  obtain ⟨g, hg, hh⟩ :=
    submitLines_holds_filter lines Globals.init [] ⟨rfl, rfl, by decide⟩
  obtain ⟨h1, h2⟩ := Holds.array_invariant hh
  refine ⟨g, hg, h1, h2, fun line => ?_, lsh_history_ret g _ hh⟩
  obtain ⟨r, hr, -⟩ := lsh_split_line_spec g _ line hh
  exact ⟨r, hr⟩

/-- Example for C20: after the lines `ls`, a blank line and `pwd` the array of
64 cells holds two entries and the sentinel. -/
theorem history_array_invariant_witness :
    submitLines Globals.init [bytes "ls", bytes "  ", bytes "pwd"] =
      some ⟨some ([Slot.ptr (bytes "ls"), Slot.ptr (bytes "pwd"), Slot.null] ++
        List.replicate 61 Slot.uninit), 2, 64⟩ ∧
    ∃ g, submitLines Globals.init [bytes "ls", bytes "  ", bytes "pwd"] = some g ∧
      (∀ arr, g.history = some arr →
        arr.length = g.historyBuffSize ∧ g.historyPos < g.historyBuffSize ∧
        0 < g.historyPos ∧
        (∀ i : Nat, i < g.historyPos → ∃ s, arr.get? i = some (Slot.ptr s)) ∧
        arr.get? g.historyPos = some Slot.null) ∧
      (g.history = none → g.historyPos = 0) ∧
      (∀ line, ∃ r, lsh_split_line g line = some r) ∧
      (lsh_history g).ret = Ret.value 1 :=
  ⟨by decide, history_array_invariant [bytes "ls", bytes "  ", bytes "pwd"]⟩

/-- A line of plain bytes at least as long as the initial capacity, once typed
and archived, does not fit the buffer of the next call: the Up arrow has no
defined result. -/
theorem up_copy_does_not_fit (line : List Nat)
    (hplain : ∀ b ∈ line, b ≠ 0 ∧ b ≠ 10 ∧ b ≠ 4 ∧ b ≠ 127 ∧ b ≠ 27)
    (htok : ∃ c ∈ line, c ∉ LSH_TOK_DELIM) (hlen : LSH_RL_BUFSIZE ≤ line.length)
    (hint : line.length + LSH_RL_BUFSIZE ≤ INT_MAX) :
    ∃ e r, lsh_read_line Globals.init (line ++ [10]) = ReadOutcome.returned line e [] ∧
      lsh_split_line Globals.init line = some r ∧ r.globals.Holds [line] ∧
      r.globals.entry 0 = some line ∧
      ¬ (line.length + 1 ≤ Editor.init.bufsize) ∧ ¬ (line.length < Editor.init.bufsize) ∧
      Editor.init.arrowUp r.globals = none ∧
      lsh_read_line r.globals upKey = ReadOutcome.undefined := by
  obtain ⟨e, r, h1, h2, h3, h4⟩ := up_overflow_of_long line hplain htok hlen hint
  have hnofit : ¬ (line.length + 1 ≤ Editor.init.bufsize) := by
    simp only [Editor.init, LSH_RL_BUFSIZE] at hlen ⊢
    omega
  have hup := arrowUp_eq h3 Editor.init 0 line rfl (by rw [h3.1]; simp [Editor.init])
  rw [if_neg hnofit] at hup
  refine ⟨e, r, h1, h2, h3, ?_, hnofit, ?_, hup, h4⟩
  · have := Holds.entry_eq h3 0 (by simp)
    simpa using this
  · simp only [Editor.init, LSH_RL_BUFSIZE] at hlen ⊢
    omega

/-- The failing input of C18: a line of 1500 bytes `x` can be typed and is
archived; on the next call the buffer has its initial capacity of 1024 and one
Up press copies the 1501 bytes of entry and terminator into it: the copy does
not fit within the capacity, the behaviour is undefined, and the cursor the
source would set, 1500, is not below the capacity. -/
theorem lsh_read_line_bound_broken :
    ∃ e r, lsh_read_line Globals.init (List.replicate 1500 120 ++ [10]) =
        ReadOutcome.returned (List.replicate 1500 120) e [] ∧
      lsh_split_line Globals.init (List.replicate 1500 120) = some r ∧
      r.globals.Holds [List.replicate 1500 120] ∧
      r.globals.entry 0 = some (List.replicate 1500 120) ∧
      ¬ ((List.replicate 1500 120).length + 1 ≤ Editor.init.bufsize) ∧
      ¬ ((List.replicate 1500 120).length < Editor.init.bufsize) ∧
      Editor.init.arrowUp r.globals = none ∧
      lsh_read_line r.globals upKey = ReadOutcome.undefined :=
  up_copy_does_not_fit (List.replicate 1500 120)
    (fun b hb => by rw [List.eq_of_mem_replicate hb]; decide)
    ⟨120, List.mem_replicate.mpr ⟨by decide, rfl⟩, by decide⟩
    (by rw [List.length_replicate]; decide)
    (by rw [List.length_replicate]; simp [LSH_RL_BUFSIZE, INT_MAX])

/-! ## Theorems about the `int` capacity of the line buffer -/

/-- The delete byte leaves the capacity alone. -/
theorem backspace_bufsize (e e1 : Editor) (h : e.backspace = some e1) :
    e1.bufsize = e.bufsize := by
  unfold Editor.backspace at h
  split_ifs at h <;> simp only [Option.some.injEq] at h <;> subst h <;> rfl

/-- The escape sequences leave the capacity alone. -/
theorem escape_bufsize (g : Globals) (e e1 : Editor) (c1 c2 : Nat)
    (h : e.escape g c1 c2 = some e1) : e1.bufsize = e.bufsize := by
  unfold Editor.escape at h
  split_ifs at h
  · exact arrowUp_bufsize g e e1 h
  · exact arrowDown_bufsize g e e1 h
  · simp only [Option.some.injEq] at h; subst h; rfl
  · simp only [Option.some.injEq] at h; subst h; rfl

/-- A normal character keeps the capacity an `int`. -/
theorem normalChar_bufsize_int (e e1 : Editor) (c : Nat) (hle : e.bufsize ≤ INT_MAX)
    (h : e.normalChar c = some e1) : e1.bufsize ≤ INT_MAX := by
  unfold Editor.normalChar at h
  simp only [Editor.position, List.length_append, List.length_singleton] at h
  split_ifs at h with h1 h2 h3
  · simp only [Option.some.injEq] at h
    subst h
    exact h3
  · simp only [Option.some.injEq] at h
    subst h
    exact hle

/-- The capacity of the line buffer is an `int` at every point where the input
ends and at every return, whatever was typed; with it the cursor, which the
bound invariant keeps below the capacity, is an `int` too. -/
theorem read_loop_bufsize_int (g : Globals) :
    ∀ (n : Nat) (pre : List Nat) (e : Editor), pre.length ≤ n → e.bufsize ≤ INT_MAX →
      (∀ e0 pend, lsh_read_line_loop g e pre = ReadOutcome.starved e0 pend →
        e0.bufsize ≤ INT_MAX) ∧
      (∀ line e0 rest, lsh_read_line_loop g e pre = ReadOutcome.returned line e0 rest →
        e0.bufsize ≤ INT_MAX) := by
  intro n
  induction n with
  | zero =>
    intro pre e hlen hle
    have : pre = [] := List.length_eq_zero.mp (by omega)
    subst this
    constructor
    · intro e0 pend h
      simp only [lsh_read_line_loop, ReadOutcome.starved.injEq] at h
      obtain ⟨rfl, -⟩ := h
      exact hle
    · intro line e0 rest h
      simp [lsh_read_line_loop] at h
  | succ n ih =>
    intro pre e hlen hle
    have hstop : ∀ pend : List Nat,
        (∀ e0 pend0, ReadOutcome.starved e pend = ReadOutcome.starved e0 pend0 →
          e0.bufsize ≤ INT_MAX) ∧
        (∀ line e0 rest, ReadOutcome.starved e pend = ReadOutcome.returned line e0 rest →
          e0.bufsize ≤ INT_MAX) := by
      intro pend
      constructor
      · intro e0 pend0 h
        simp only [ReadOutcome.starved.injEq] at h
        obtain ⟨rfl, -⟩ := h
        exact hle
      · intro line e0 rest h
        simp at h
    rcases pre with _ | ⟨c, p⟩
    · simpa [lsh_read_line_loop] using hstop []
    · simp only [List.length_cons] at hlen
      by_cases h27 : c = 27
      · subst h27
        rcases p with _ | ⟨c1, _ | ⟨c2, p2⟩⟩
        · simpa [lsh_read_line_loop] using hstop [27]
        · simpa [lsh_read_line_loop] using hstop [27, c1]
        · rw [read_loop_esc]
          cases hesc : e.escape g c1 c2 with
          | none => simp
          | some e1 =>
            simp only
            exact ih p2 e1 (by simp only [List.length_cons] at hlen; omega)
              (by rw [escape_bufsize g e e1 c1 c2 hesc]; exact hle)
      · rw [read_loop_cons g e c p h27]
        by_cases h10 : c = 10
        · rw [if_pos h10]
          split
          · constructor
            · intro e0 pend h
              simp at h
            · intro line e0 rest h
              simp only [ReadOutcome.returned.injEq] at h
              obtain ⟨-, rfl, -⟩ := h
              exact hle
          · simp
        · rw [if_neg h10]
          by_cases h4 : c = 4
          · rw [if_pos h4]
            split
            · constructor
              · intro e0 pend h
                simp at h
              · intro line e0 rest h
                simp only [ReadOutcome.returned.injEq] at h
                obtain ⟨-, rfl, -⟩ := h
                exact hle
            · simp
          · rw [if_neg h4]
            by_cases h127 : c = 127
            · rw [if_pos h127]
              cases hb : e.backspace with
              | none => simp
              | some e1 =>
                simp only
                exact ih p e1 (by omega) (by rw [backspace_bufsize e e1 hb]; exact hle)
            · rw [if_neg h127]
              cases hb : e.normalChar c with
              | none => simp
              | some e1 =>
                simp only
                exact ih p e1 (by omega) (normalChar_bufsize_int e e1 c hle hb)

/-- At every point of a call of `lsh_read_line` where the input ends, cursor
and capacity are values of `int`: the cursor is below the capacity and the
capacity is at most `INT_MAX`. -/
theorem lsh_read_line_int (g : Globals) (es : List (List Nat)) (hg : g.Holds es)
    (pre : List Nat) (e : Editor) (pend : List Nat)
    (h : lsh_read_line g pre = ReadOutcome.starved e pend) :
    e.position < e.bufsize ∧ e.bufsize ≤ INT_MAX :=
  ⟨(read_loop_inv g es hg _ pre Editor.init e pend (Nat.le_refl _) (Inv.init es) h).1,
    (read_loop_bufsize_int g _ pre Editor.init (Nat.le_refl _)
      (by simp [Editor.init, LSH_RL_BUFSIZE, INT_MAX])).1 e pend h⟩

/-- Plain bytes typed at a fresh prompt up to a buffer of 2147482623 bytes leave
the capacity at 2147482624, and one more plain byte fills the buffer: the
capacity would have to grow to 2147483648, which is not an `int`. -/
theorem typed_int_overflow (g : Globals) (s : List Nat)
    (hs : ∀ b ∈ s, b ≠ 10 ∧ b ≠ 4 ∧ b ≠ 127 ∧ b ≠ 27) (hlen : s.length = 2147482623)
    (c : Nat) (hc : c ≠ 10 ∧ c ≠ 4 ∧ c ≠ 127 ∧ c ≠ 27) (rest : List Nat) :
    lsh_read_line g s = ReadOutcome.starved ⟨2147482624, s, -1, s⟩ [] ∧
      lsh_read_line g (s ++ c :: rest) = ReadOutcome.undefined := by
  have h1 := typed_capacity g s hs (by rw [hlen]; simp [LSH_RL_BUFSIZE, INT_MAX])
  have hcap : LSH_RL_BUFSIZE * (s.length / LSH_RL_BUFSIZE + 1) = 2147482624 := by
    rw [hlen]
    simp [LSH_RL_BUFSIZE]
  rw [hcap] at h1
  refine ⟨h1, ?_⟩
  unfold lsh_read_line at h1 ⊢
  rw [read_loop_append g _ s Editor.init _ (c :: rest) (Nat.le_refl _) h1,
    read_loop_cons g _ c rest hc.2.2.2, if_neg hc.1, if_neg hc.2.1, if_neg hc.2.2.1,
    normalChar_int_overflow _ c hlen rfl]

/-- A line of 2147482624 plain bytes cannot be typed: its last byte overflows
the capacity. -/
theorem plain_line_too_long (g : Globals) (s : List Nat)
    (hs : ∀ b ∈ s, b ≠ 10 ∧ b ≠ 4 ∧ b ≠ 127 ∧ b ≠ 27) (hlen : s.length = 2147482624)
    (rest : List Nat) : lsh_read_line g (s ++ rest) = ReadOutcome.undefined := by
  have hne : s ≠ [] := by
    intro h
    rw [h] at hlen
    exact absurd hlen (by simp)
  have hsplit := List.dropLast_append_getLast hne
  have h := (typed_int_overflow g s.dropLast
    (fun b hb => hs b (List.mem_of_mem_dropLast hb))
    (by rw [List.length_dropLast, hlen]) (s.getLast hne) (hs _ (List.getLast_mem hne)) rest).2
  rw [← hsplit, List.append_assoc]
  exact h

/-- Counterexample to C1 as stated: the line of 2147482624 bytes `x` is made of
printable bytes, none of them a control byte, and `lsh_read_line` fed that line
followed by a newline does not return it: the byte that fills the capacity of
2147482624 makes `bufsize += LSH_RL_BUFSIZE` overflow `int`. -/
theorem plain_line_overflows_int :
    (∀ b ∈ List.replicate 2147482624 120,
      32 ≤ b ∧ b ≤ 126 ∧ b ≠ 10 ∧ b ≠ 4 ∧ b ≠ 127 ∧ b ≠ 27) ∧
    lsh_read_line Globals.init (List.replicate 2147482624 120 ++ [10]) =
      ReadOutcome.undefined ∧
    (lsh_read_line Globals.init (List.replicate 2147482624 120 ++ [10])).returnedLine ≠
      some (List.replicate 2147482624 120) := by
  have h := plain_line_too_long Globals.init (List.replicate 2147482624 120)
    (fun b hb => by rw [List.eq_of_mem_replicate hb]; decide) (List.length_replicate _ _) [10]
  refine ⟨fun b hb => by rw [List.eq_of_mem_replicate hb]; decide, h, ?_⟩
  rw [h]
  exact fun hh => Option.noConfusion hh

/-- Counterexample to C14 as stated: after 2147482623 bytes `x` typed at a fresh
prompt the function is at the head of its loop with the cursor at 2147482623,
above 0, and the capacity at 2147482624; typing the printable byte `x` and then
delete does not restore buffer and cursor, since the typed byte makes
`bufsize += LSH_RL_BUFSIZE` overflow `int`. -/
theorem backspace_after_int_overflow :
    ∃ e, lsh_read_line Globals.init (List.replicate 2147482623 120) =
        ReadOutcome.starved e [] ∧
      0 < e.position ∧ e.position = 2147482623 ∧ e.bufsize = 2147482624 ∧
      lsh_read_line Globals.init (List.replicate 2147482623 120 ++ [120, 127]) =
        ReadOutcome.undefined := by
  have h := typed_int_overflow Globals.init (List.replicate 2147482623 120)
    (fun b hb => by rw [List.eq_of_mem_replicate hb]; decide) (List.length_replicate _ _)
    120 (by decide) [127]
  have hpos : (⟨2147482624, List.replicate 2147482623 120, -1,
      List.replicate 2147482623 120⟩ : Editor).position = 2147482623 :=
    List.length_replicate _ _
  refine ⟨_, h.1, ?_, hpos, rfl, h.2⟩
  rw [hpos]
  decide

end BasicShell
